import Mathlib

/-!
Verification of the EasyElective election engine (easyelective.py) against its
natural-language specification.

The Python program is shallowly embedded: the portal's HTTP/HTML behaviour is
abstracted into small response datatypes (one constructor per observationally
distinct response shape the code branches on), and the program's control flow
is translated function by function.  Machine-level concerns do not arise: the
program manipulates Python lists, dicts and unbounded ints only.
-/

namespace EasyElective

deriving instance DecidableEq for Except

/-- Error kinds observable from the program.  The first four are the
exception classes declared in easyelective.py (lines 22-43); `valueError`,
`keyError` and `requestException` stand for raw Python / requests exceptions
that escape the program's own handlers. -/
inductive PyErr
  | authenticationError
  | networkError
  | sessionExpiredError
  | illegalOperationError
  | valueError
  | keyError
  | requestException
deriving DecidableEq, Repr

/-- `Course` namedtuple (easyelective.py line 47).  `classID` is kept as the
raw string scraped from the page; `max_slots` and `used_slots` come from
`int(...)` and are unbounded integers. -/
structure Course where
  name : String
  classID : String
  college : String
  max_slots : Int
  used_slots : Int
  elect_address : String
deriving DecidableEq, Repr

/-- A row of targets.csv as read by `csv.DictReader` (main, line 206): the
three header-named fields the program consults. -/
structure Target where
  courseName : String
  classID : String
  college : String
deriving DecidableEq, Repr

/-! ## Python `int()` on strings

`main` compares class IDs with `int(course.classID) == int(target["classID"])`
(line 239).  `py_int` models Python's `int` on a string: an optional sign
followed by one or more decimal digits (Python additionally strips surrounding
whitespace and allows `_` separators between digits; those inputs do not occur
here and are modelled as failures).  `none` models the `ValueError` raised on
a malformed string. -/

/-- Accumulate a decimal digit string into a number; `none` on a non-digit. -/
def parseDigitsAux : List Char → Nat → Option Nat
  | [], acc => some acc
  | c :: cs, acc =>
    if c.isDigit then parseDigitsAux cs (acc * 10 + (c.toNat - '0'.toNat))
    else none

/-- Python `int(s)` for a string `s`: `none` models `ValueError`. -/
def py_int (s : String) : Option Int :=
  match s.data with
  | [] => none
  | '-' :: rest =>
    if rest.isEmpty then none else (parseDigitsAux rest 0).map (fun n => -(n : Int))
  | '+' :: rest =>
    if rest.isEmpty then none else (parseDigitsAux rest 0).map (fun n => (n : Int))
  | cs => (parseDigitsAux cs 0).map (fun n => (n : Int))

/-! ## Substring containment (Python `in` on strings) -/

/-- Whether `pat` occurs as a contiguous sublist of the second argument. -/
def hasSublist (pat : List Char) : List Char → Bool
  | [] => pat.isEmpty
  | c :: rest => pat.isPrefixOf (c :: rest) || hasSublist pat rest

/-- Python `pat in s` for strings. -/
def strContains (s pat : String) : Bool := hasSublist pat.data s.data

/-! ## Target matching (main, lines 235-241)

The list comprehension
```
[course for course in courses
        if course.name == target["courseName"]
        if int(course.classID) == int(target["classID"])
        if course.college == target["college"]]
```
evaluates its guards left to right for each course; `int()` can raise
`ValueError`, which aborts the whole comprehension, so the result is
`Except`. -/

/-- The three comprehension guards for one course, in source order.
`Except.error ()` models the `ValueError` from `int()` on a malformed
class ID (only reachable when the names already match, since guards are
evaluated left to right). -/
def courseMatches (t : Target) (c : Course) : Except Unit Bool :=
  if c.name = t.courseName then
    match py_int c.classID, py_int t.classID with
    | some a, some b =>
      if a = b then .ok (decide (c.college = t.college)) else .ok false
    | _, _ => .error ()
  else .ok false

/-- The `search_result` list comprehension: courses matching the target, in
directory order, or the `ValueError` escaping from `int()`. -/
def search_result (t : Target) : List Course → Except Unit (List Course)
  | [] => .ok []
  | c :: rest =>
    match courseMatches t c with
    | .error e => .error e
    | .ok b =>
      match search_result t rest with
      | .error e => .error e
      | .ok l => .ok (if b then c :: l else l)

/-- The selectability test of main line 252: `course.used_slots < course.max_slots`. -/
def electable (c : Course) : Bool := decide (c.used_slots < c.max_slots)

/-! ## Election response classification (elect, lines 182-194)

After the CAPTCHA gate, `elect` fetches the election page and reads
`soup.find(id="msgTips").text`.  A page with no `msgTips` element makes
`.text` raise `AttributeError`, caught and re-raised as
`SessionExpiredError`; otherwise the message text is inspected for the
literal marker `"成功"`. -/

/-- Outcome of elect's response classification. -/
inductive ElectResult
  | success
  | illegalOperationError
  | sessionExpiredError
deriving DecidableEq, Repr

/-- The success marker hard-coded at line 190. -/
def electSuccessMarker : String := "成功"

/-- Classification of the election response.  `msg = none` models a page from
which no `msgTips` message can be extracted (`AttributeError`/`KeyError`
branch, line 186); `msg = some m` models a parsed message `m`. -/
def classify_elect_response (msg : Option String) : ElectResult :=
  match msg with
  | none => .sessionExpiredError
  | some m =>
    if strContains m electSuccessMarker then .success
    else .illegalOperationError

/-! ## CAPTCHA solving (solve_captcha, lines 153-173)

Each round requests a challenge, submits the solver's guess, and inspects the
JSON reply.  The reply shapes the code distinguishes:
- `resp.json()["valid"]` yields a value `v` (retry unless `v == "2"`),
- `resp.json()` parses but the `"valid"` lookup raises (`KeyError` /
  `TypeError`) — NOT caught by the `except ValueError` handler,
- `resp.json()` raises `ValueError` — caught, re-raised as
  `SessionExpiredError`.
The scripted list of replies stands for the portal; an empty list means the
unbounded recursion is still running (the recursion has no bound of its
own). -/

/-- One submission reply, as far as solve_captcha's branches can observe. -/
inductive CaptchaResp
  | validField (v : String)
  | jsonNoValid
  | notJson
deriving DecidableEq, Repr

/-- Outcome of solve_captcha on a scripted reply list. -/
inductive CaptchaOutcome
  | success
  | sessionExpiredError
  | uncaughtError
  | outOfResponses
deriving DecidableEq, Repr

/-- solve_captcha's retry recursion over scripted replies. -/
def solve_captcha : List CaptchaResp → CaptchaOutcome
  | [] => .outOfResponses
  | r :: rest =>
    match r with
    | .validField v => if v ≠ "2" then solve_captcha rest else .success
    | .jsonNoValid => .uncaughtError
    | .notJson => .sessionExpiredError

/-- A reply that makes solve_captcha retry: a readable `valid` field whose
value is not `"2"`. -/
def isRetryResp : CaptchaResp → Bool
  | .validField v => decide (v ≠ "2")
  | _ => false

/-! ## Session acquisition (get_iaaa_token lines 58-81, get_elective_session
lines 84-110)

`Transport α` models one HTTP call: `ok a` delivers a response observed as
`a`, `exn` models `requests.exceptions.RequestException` (timeouts,
connection failures). -/

/-- Result of one HTTP request. -/
inductive Transport (α : Type)
  | ok (a : α)
  | exn
deriving DecidableEq, Repr

/-- The IAAA login response, as far as get_iaaa_token's branches observe it:
a JSON body with a `token` field, a JSON body without one (`KeyError`,
caught → AuthenticationError), or a body that is not JSON (`r.json()`
raises — caught by NO handler in get_iaaa_token). -/
inductive IaaaResp
  | tokenField (tok : String)
  | jsonNoToken
  | notJson
deriving DecidableEq, Repr

/-- get_iaaa_token: posts the credential form (transport failure →
NetworkError), then reads `r.json()["token"]` under `except KeyError` only. -/
def get_iaaa_token (post : Transport IaaaResp) : Except PyErr String :=
  match post with
  | .exn => .error .networkError
  | .ok (.tokenField tok) => .ok tok
  | .ok .jsonNoToken => .error .authenticationError
  | .ok .notJson => .error .valueError

/-- get_elective_session: obtain the IAAA token, then exchange it at the
portal login URL; a non-200 status is AuthenticationError, transport failure
is NetworkError.  The session object itself is opaque (`Unit`). -/
def get_elective_session (post : Transport IaaaResp) (login : Transport Nat) :
    Except PyErr Unit :=
  match get_iaaa_token post with
  | .error e => .error e
  | .ok _ =>
    match login with
    | .exn => .error .networkError
    | .ok status => if status ≠ 200 then .error .authenticationError else .ok ()

/-! ## The election loop (main, lines 210-272)

One pass of the `while targets:` body after a session is held:
`get_courses` then a `for target in targets:` scan, wrapped in
`try/except SessionExpiredError / IllegalOperationError / NetworkError`.

The scan mutates `targets` while iterating it.  CPython's list iterator is a
bare index: it yields `targets[k]` and advances `k`, regardless of removals,
so the element after a removed one is skipped.  `scanAux` reproduces exactly
that: `k` is the iterator index and the list argument is the current mutated
list.  Each step advances `k` by one and the list never grows, so
`targets.length` steps always suffice; the fuel argument of `scanAux` is a
structural-recursion device only, set to `targets.length` by `scanTargets`
(when it reaches 0 the index is already past the end of the list).

`elect` (CAPTCHA, HTTP, response classification) is abstracted by an oracle
`Nat → ElectOutcome` giving the outcome of the n-th elect call of the pass;
`ghost` fields record the elect calls made and the removals performed, with
the reason the code logs for each removal. -/

/-- Outcome of one `elect(sess, course)` call, as observed by main:
normal return, `SessionExpiredError`, `IllegalOperationError`, or an
exception none of main's handlers catch (raw transport errors from
`session.get`, the `KeyError` escaping solve_captcha, ...). -/
inductive ElectOutcome
  | success
  | sessExp
  | illegalOp
  | uncaught
deriving DecidableEq, Repr

/-- Reason logged when a target is removed (lines 245-248, 253-257, 264-267). -/
inductive Reason
  | elected
  | notFound
  | illegalOp
deriving DecidableEq, Repr

/-- How the `try` block of the loop body ends: the `for` scan ran to
completion, or an exception escaped it (`SessionExpiredError`;
`IllegalOperationError`, carrying the value of the loop variable `target` at
that moment, which the handler uses; or an exception with no handler, which
aborts the program). -/
inductive ScanExit
  | finished
  | sessExpExn
  | illegalExn (t : Target)
  | uncaughtExn
deriving DecidableEq, Repr

/-- Python `targets.remove(target)`: drop the first occurrence, or raise
`ValueError` when absent. -/
def pyRemove (t : Target) (l : List Target) : Except Unit (List Target) :=
  if t ∈ l then .ok (l.erase t) else .error ()

/-- State produced by the inner `for course in search_result:` loop:
mutated target list, next elect-oracle index, ghost logs, and the exception
escaping the loop, if any. -/
structure LoopState where
  targets : List Target
  nAttempt : Nat
  attempts : List (Target × Course)
  removals : List (Target × Reason)
  exit : Option ScanExit
deriving Repr, DecidableEq

/-- The inner loop of main lines 251-257: for each course of the search
result, if it is selectable, call `elect` and then `targets.remove(target)`.
Note the loop continues past a successful election, so a second selectable
match triggers a second elect call and a second removal attempt (the latter
raising `ValueError` if the target is already gone). -/
def electLoop (oracle : Nat → ElectOutcome) (t : Target) :
    List Course → List Target → Nat → List (Target × Course) →
    List (Target × Reason) → LoopState
  | [], targets, n, attempts, removals => ⟨targets, n, attempts, removals, none⟩
  | c :: rest, targets, n, attempts, removals =>
    if electable c then
      match oracle n with
      | .success =>
        match pyRemove t targets with
        | .ok targets2 =>
          electLoop oracle t rest targets2 (n + 1)
            (attempts ++ [(t, c)]) (removals ++ [(t, .elected)])
        | .error _ =>
          ⟨targets, n + 1, attempts ++ [(t, c)], removals, some .uncaughtExn⟩
      | .sessExp =>
        ⟨targets, n + 1, attempts ++ [(t, c)], removals, some .sessExpExn⟩
      | .illegalOp =>
        ⟨targets, n + 1, attempts ++ [(t, c)], removals, some (.illegalExn t)⟩
      | .uncaught =>
        ⟨targets, n + 1, attempts ++ [(t, c)], removals, some .uncaughtExn⟩
    else electLoop oracle t rest targets n attempts removals

/-- State after the whole `for target in targets:` scan. -/
structure ScanState where
  targets : List Target
  exit : ScanExit
  nAttempt : Nat
  attempts : List (Target × Course)
  removals : List (Target × Reason)
deriving Repr, DecidableEq

/-- The `for target in targets:` scan (main lines 232-257).  `k` is the
CPython iterator index into the current (mutated) list; one fuel unit is
spent per index step. -/
def scanAux (oracle : Nat → ElectOutcome) (courses : List Course) :
    Nat → List Target → Nat → Nat → List (Target × Course) →
    List (Target × Reason) → ScanState
  | 0, targets, _, n, attempts, removals =>
    ⟨targets, .finished, n, attempts, removals⟩
  | fuel + 1, targets, k, n, attempts, removals =>
    match targets[k]? with
    | none => ⟨targets, .finished, n, attempts, removals⟩
    | some t =>
      match search_result t courses with
      | .error _ => ⟨targets, .uncaughtExn, n, attempts, removals⟩
      | .ok sr =>
        if sr.isEmpty then
          match pyRemove t targets with
          | .ok targets2 =>
            scanAux oracle courses fuel targets2 (k + 1) n attempts
              (removals ++ [(t, .notFound)])
          | .error _ => ⟨targets, .uncaughtExn, n, attempts, removals⟩
        else
          match electLoop oracle t sr targets n attempts removals with
          | ⟨targets2, n2, attempts2, removals2, none⟩ =>
            scanAux oracle courses fuel targets2 (k + 1) n2 attempts2 removals2
          | ⟨targets2, n2, attempts2, removals2, some e⟩ =>
            ⟨targets2, e, n2, attempts2, removals2⟩

/-- The full scan of one loop pass, starting at iterator index 0. -/
def scanTargets (oracle : Nat → ElectOutcome) (courses : List Course)
    (targets : List Target) : ScanState :=
  scanAux oracle courses targets.length targets 0 0 [] []

/-- Outcome of `get_courses(sess)` (lines 113-150): a parsed course list,
`NetworkError`, or `SessionExpiredError` (parse failure). -/
inductive FetchResult
  | ok (courses : List Course)
  | netErr
  | sessExp
deriving DecidableEq, Repr

/-- Result of one pass of the `while targets:` body (after the login loop):
the surviving target list, whether `session_expired` was set (so the next
pass re-authenticates first), whether an uncaught exception ended the
program, and the ghost logs. -/
structure IterResult where
  targets : List Target
  sessionExpired : Bool
  crashed : Bool
  attempts : List (Target × Course)
  removals : List (Target × Reason)
deriving Repr, DecidableEq

/-- One pass of the loop body: fetch, scan, and the three `except` handlers
(lines 258-270).  `SessionExpiredError` sets the re-login flag;
`IllegalOperationError` performs `targets.remove(target)` on the current
loop variable; `NetworkError` does nothing; anything else crashes the
program. -/
def runIteration (fetch : FetchResult) (oracle : Nat → ElectOutcome)
    (targets : List Target) : IterResult :=
  match fetch with
  | .netErr => ⟨targets, false, false, [], []⟩
  | .sessExp => ⟨targets, true, false, [], []⟩
  | .ok courses =>
    let s := scanTargets oracle courses targets
    match s.exit with
    | .finished => ⟨s.targets, false, false, s.attempts, s.removals⟩
    | .sessExpExn => ⟨s.targets, true, false, s.attempts, s.removals⟩
    | .illegalExn t =>
      match pyRemove t s.targets with
      | .ok targets2 =>
        ⟨targets2, false, false, s.attempts, s.removals ++ [(t, .illegalOp)]⟩
      | .error _ => ⟨s.targets, false, true, s.attempts, s.removals⟩
    | .uncaughtExn => ⟨s.targets, false, true, s.attempts, s.removals⟩

/-- One scripted pass of the outer loop: the fetch outcome and the elect
oracle for that pass (both stand for the portal's behaviour). -/
structure IterInput where
  fetch : FetchResult
  oracle : Nat → ElectOutcome

/-- Final state of a run of the election loop. -/
structure RunResult where
  targets : List Target
  removals : List (Target × Reason)
  crashed : Bool
deriving Repr, DecidableEq

/-- The outer `while targets:` loop over scripted passes.  It stops when the
target list is empty (normal exit), when the script runs out (the real loop
would keep polling), or when a pass crashes.  The login loop (lines 213-227)
never touches the target list and is not modelled. -/
def runLoop : List IterInput → List Target → List (Target × Reason) → RunResult
  | _, [], removals => ⟨[], removals, false⟩
  | [], targets, removals => ⟨targets, removals, false⟩
  | inp :: rest, t :: ts, removals =>
    match runIteration inp.fetch inp.oracle (t :: ts) with
    | ⟨itg, _, true, _, irem⟩ => ⟨itg, removals ++ irem, true⟩
    | ⟨itg, _, false, _, irem⟩ => runLoop rest itg (removals ++ irem)

/-! # Helper lemmas about the loop model -/

theorem pyRemove_mem {t : Target} {l : List Target} (h : t ∈ l) :
    pyRemove t l = .ok (l.erase t) := by
  simp [pyRemove, h]

theorem pyRemove_not_mem {t : Target} {l : List Target} (h : t ∉ l) :
    pyRemove t l = .error () := by
  simp [pyRemove, h]

/-- The inner elect loop only appends to the attempts log, every appended
attempt is for the scanned target and a selectable course, and each call
either leaves the target list and removal log alone or removes the scanned
target exactly once. -/
theorem electLoop_inv (oracle : Nat → ElectOutcome) (t : Target) :
    ∀ (sr : List Course) (targets : List Target) (n : Nat)
      (attempts : List (Target × Course)) (removals : List (Target × Reason))
      (r : LoopState), targets.Nodup →
      electLoop oracle t sr targets n attempts removals = r →
      (∃ da, r.attempts = attempts ++ da ∧
        ∀ a ∈ da, a.1 = t ∧ electable a.2 = true ∧ a.2 ∈ sr) ∧
      ((r.removals = removals ∧ r.targets = targets) ∨
       (r.removals = removals ++ [(t, Reason.elected)] ∧ t ∈ targets ∧
        r.targets = targets.erase t)) := by
  intro sr
  induction sr with
  | nil =>
    intro targets n attempts removals r hnd hr
    rw [electLoop] at hr
    subst hr
    exact ⟨⟨[], by simp, by simp⟩, Or.inl ⟨rfl, rfl⟩⟩
  | cons c rest ih =>
    intro targets n attempts removals r hnd hr
    by_cases hc : electable c
    · rw [electLoop, if_pos hc] at hr
      cases ho : oracle n with
      | success =>
        simp only [ho] at hr
        by_cases ht : t ∈ targets
        · simp only [pyRemove_mem ht] at hr
          obtain ⟨⟨da, hda, hdael⟩, hrem⟩ :=
            ih (targets.erase t) (n + 1) (attempts ++ [(t, c)])
              (removals ++ [(t, .elected)]) r (hnd.erase t) hr
          refine ⟨⟨(t, c) :: da, ?_, ?_⟩, ?_⟩
          · simpa using hda
          · intro a ha
            rcases List.mem_cons.mp ha with h | h
            · subst h; exact ⟨rfl, hc, List.mem_cons_self _ _⟩
            · obtain ⟨h1, h2, h3⟩ := hdael a h
              exact ⟨h1, h2, List.mem_cons_of_mem _ h3⟩
          · rcases hrem with ⟨h1, h2⟩ | ⟨h1, h2, h3⟩
            · exact Or.inr ⟨h1, ht, h2⟩
            · exact absurd h2 (hnd.not_mem_erase)
        · simp only [pyRemove_not_mem ht] at hr
          subst hr
          refine ⟨⟨[(t, c)], rfl, ?_⟩, Or.inl ⟨rfl, rfl⟩⟩
          intro a ha
          rcases List.mem_singleton.mp ha with h
          subst h; exact ⟨rfl, hc, List.mem_cons_self _ _⟩
      | sessExp =>
        simp only [ho] at hr
        subst hr
        refine ⟨⟨[(t, c)], rfl, ?_⟩, Or.inl ⟨rfl, rfl⟩⟩
        intro a ha
        rcases List.mem_singleton.mp ha with h
        subst h; exact ⟨rfl, hc, List.mem_cons_self _ _⟩
      | illegalOp =>
        simp only [ho] at hr
        subst hr
        refine ⟨⟨[(t, c)], rfl, ?_⟩, Or.inl ⟨rfl, rfl⟩⟩
        intro a ha
        rcases List.mem_singleton.mp ha with h
        subst h; exact ⟨rfl, hc, List.mem_cons_self _ _⟩
      | uncaught =>
        simp only [ho] at hr
        subst hr
        refine ⟨⟨[(t, c)], rfl, ?_⟩, Or.inl ⟨rfl, rfl⟩⟩
        intro a ha
        rcases List.mem_singleton.mp ha with h
        subst h; exact ⟨rfl, hc, List.mem_cons_self _ _⟩
    · rw [electLoop, if_neg hc] at hr
      obtain ⟨⟨da, hda, hdael⟩, hrem⟩ :=
        ih targets n attempts removals r hnd hr
      refine ⟨⟨da, hda, ?_⟩, hrem⟩
      intro a ha
      obtain ⟨h1, h2, h3⟩ := hdael a ha
      exact ⟨h1, h2, List.mem_cons_of_mem _ h3⟩

/-- If no course of the search result is selectable, the inner loop does
nothing. -/
theorem electLoop_no_electable (oracle : Nat → ElectOutcome) (t : Target) :
    ∀ (sr : List Course) (targets : List Target) (n : Nat)
      (attempts : List (Target × Course)) (removals : List (Target × Reason)),
      sr.filter electable = [] →
      electLoop oracle t sr targets n attempts removals =
        ⟨targets, n, attempts, removals, none⟩ := by
  intro sr
  induction sr with
  | nil => intro targets n attempts removals _; rfl
  | cons c rest ih =>
    intro targets n attempts removals h
    rw [List.filter_cons] at h
    by_cases hc : electable c
    · simp [hc] at h
    · rw [electLoop, if_neg hc]
      exact ih targets n attempts removals (by simpa [hc] using h)

/-- If exactly one course of the search result is selectable, the inner loop
makes exactly one elect call, for that course; and it ends without an
exception only when that call succeeded and the removal went through. -/
theorem electLoop_single (oracle : Nat → ElectOutcome) (t : Target)
    (c : Course) :
    ∀ (sr : List Course) (targets : List Target) (n : Nat)
      (attempts : List (Target × Course)) (removals : List (Target × Reason))
      (r : LoopState),
      sr.filter electable = [c] →
      electLoop oracle t sr targets n attempts removals = r →
      r.attempts = attempts ++ [(t, c)] ∧
      (r.exit = none →
        oracle n = .success ∧ r.targets = targets.erase t) := by
  intro sr
  induction sr with
  | nil => intro targets n attempts removals r h _; simp at h
  | cons c' rest ih =>
    intro targets n attempts removals r h hr
    rw [List.filter_cons] at h
    by_cases hc : electable c'
    · rw [if_pos hc] at h
      obtain ⟨hc', hrest⟩ := List.cons_eq_cons.mp h
      subst hc'
      rw [electLoop, if_pos hc] at hr
      cases ho : oracle n with
      | success =>
        simp only [ho] at hr
        by_cases ht : t ∈ targets
        · simp only [pyRemove_mem ht] at hr
          rw [electLoop_no_electable oracle t rest _ _ _ _ hrest] at hr
          subst hr
          exact ⟨rfl, fun _ => ⟨rfl, rfl⟩⟩
        · simp only [pyRemove_not_mem ht] at hr
          subst hr
          exact ⟨rfl, by simp⟩
      | sessExp => simp only [ho] at hr; subst hr; exact ⟨rfl, by simp⟩
      | illegalOp => simp only [ho] at hr; subst hr; exact ⟨rfl, by simp⟩
      | uncaught => simp only [ho] at hr; subst hr; exact ⟨rfl, by simp⟩
    · rw [if_neg hc] at h
      rw [electLoop, if_neg hc] at hr
      exact ih targets n attempts removals r h hr

/-- The inner loop only ever appends to the attempts log (no hypotheses). -/
theorem electLoop_attempts_mono (oracle : Nat → ElectOutcome) (t : Target) :
    ∀ (sr : List Course) (targets : List Target) (n : Nat)
      (attempts : List (Target × Course)) (removals : List (Target × Reason))
      (r : LoopState),
      electLoop oracle t sr targets n attempts removals = r →
      ∃ da, r.attempts = attempts ++ da := by
  intro sr
  induction sr with
  | nil =>
    intro targets n attempts removals r hr
    rw [electLoop] at hr
    subst hr
    exact ⟨[], by simp⟩
  | cons c rest ih =>
    intro targets n attempts removals r hr
    by_cases hc : electable c
    · rw [electLoop, if_pos hc] at hr
      cases ho : oracle n with
      | success =>
        simp only [ho] at hr
        by_cases ht : t ∈ targets
        · simp only [pyRemove_mem ht] at hr
          obtain ⟨da, hda⟩ := ih (targets.erase t) (n + 1) (attempts ++ [(t, c)])
            (removals ++ [(t, .elected)]) r hr
          exact ⟨(t, c) :: da, by simpa using hda⟩
        · simp only [pyRemove_not_mem ht] at hr
          subst hr
          exact ⟨[(t, c)], rfl⟩
      | sessExp => simp only [ho] at hr; subst hr; exact ⟨[(t, c)], rfl⟩
      | illegalOp => simp only [ho] at hr; subst hr; exact ⟨[(t, c)], rfl⟩
      | uncaught => simp only [ho] at hr; subst hr; exact ⟨[(t, c)], rfl⟩
    · rw [electLoop, if_neg hc] at hr
      exact ih targets n attempts removals r hr

/-- If some course of the search result is selectable, at least one elect
call is made. -/
theorem electLoop_attempts_len (oracle : Nat → ElectOutcome) (t : Target) :
    ∀ (sr : List Course) (targets : List Target) (n : Nat)
      (attempts : List (Target × Course)) (removals : List (Target × Reason))
      (r : LoopState),
      sr.filter electable ≠ [] →
      electLoop oracle t sr targets n attempts removals = r →
      attempts.length < r.attempts.length := by
  intro sr
  induction sr with
  | nil => intro targets n attempts removals r h _; simp at h
  | cons c rest ih =>
    intro targets n attempts removals r h hr
    by_cases hc : electable c
    · rw [electLoop, if_pos hc] at hr
      cases ho : oracle n with
      | success =>
        simp only [ho] at hr
        by_cases ht : t ∈ targets
        · simp only [pyRemove_mem ht] at hr
          obtain ⟨da, hda⟩ := electLoop_attempts_mono oracle t rest
            (targets.erase t) (n + 1) (attempts ++ [(t, c)])
            (removals ++ [(t, .elected)]) r hr
          rw [hda]
          simp
        · simp only [pyRemove_not_mem ht] at hr; subst hr; simp
      | sessExp => simp only [ho] at hr; subst hr; simp
      | illegalOp => simp only [ho] at hr; subst hr; simp
      | uncaught => simp only [ho] at hr; subst hr; simp
    · rw [electLoop, if_neg hc] at hr
      exact ih targets n attempts removals r
        (by simpa [List.filter_cons, hc] using h) hr

/-- Combining one removal of the scanned target with the bookkeeping of the
rest of the scan (which operates on the list with that target erased). -/
theorem removal_step_combine {targets : List Target} {t : Target}
    (hnd : targets.Nodup) (htm : t ∈ targets) (rsn : Reason)
    (dr2 : List (Target × Reason)) (stg : List Target)
    (h3 : (dr2.map Prod.fst).Nodup)
    (h4 : ∀ p ∈ dr2, p.1 ∈ targets.erase t)
    (h5 : ∀ x, x ∈ stg ↔ x ∈ targets.erase t ∧ x ∉ dr2.map Prod.fst) :
    ((((t, rsn) :: dr2).map Prod.fst).Nodup) ∧
    (∀ p ∈ (t, rsn) :: dr2, p.1 ∈ targets) ∧
    (∀ x, x ∈ stg ↔ x ∈ targets ∧ x ∉ ((t, rsn) :: dr2).map Prod.fst) := by
  refine ⟨?_, ?_, ?_⟩
  · simp only [List.map_cons, List.nodup_cons]
    refine ⟨?_, h3⟩
    intro hmem
    obtain ⟨p, hp, hpt⟩ := List.mem_map.mp hmem
    have hpe := h4 p hp
    rw [hpt] at hpe
    exact hnd.not_mem_erase hpe
  · intro p hp
    rcases List.mem_cons.mp hp with h | h
    · subst h; exact htm
    · exact List.mem_of_mem_erase (h4 p h)
  · intro x
    rw [h5 x]
    constructor
    · rintro ⟨hx1, hx2⟩
      have hx3 := (hnd.mem_erase_iff).mp hx1
      refine ⟨hx3.2, ?_⟩
      simp only [List.map_cons, List.mem_cons]
      rintro (h | h)
      · exact hx3.1 h
      · exact hx2 h
    · rintro ⟨hx1, hx2⟩
      simp only [List.map_cons, List.mem_cons] at hx2
      push_neg at hx2
      exact ⟨(hnd.mem_erase_iff).mpr ⟨hx2.1, hx1⟩, hx2.2⟩

/-- Main invariant of the `for target in targets:` scan.  Starting from a
duplicate-free working list: the removal and attempt logs only grow; the
targets named in the new removals are pairwise distinct and drawn from the
working list; the surviving list consists exactly of the working list minus
the removed targets; the surviving list stays duplicate-free; and every
logged attempt is for a target of the working list and a selectable
course. -/
theorem scanAux_inv (oracle : Nat → ElectOutcome) (courses : List Course) :
    ∀ (fuel : Nat) (targets : List Target) (k n : Nat)
      (attempts : List (Target × Course)) (removals : List (Target × Reason))
      (s : ScanState), targets.Nodup →
      scanAux oracle courses fuel targets k n attempts removals = s →
      ∃ dr da,
        s.removals = removals ++ dr ∧
        s.attempts = attempts ++ da ∧
        (dr.map Prod.fst).Nodup ∧
        (∀ p ∈ dr, p.1 ∈ targets) ∧
        (∀ x, x ∈ s.targets ↔ x ∈ targets ∧ x ∉ dr.map Prod.fst) ∧
        s.targets.Nodup ∧
        (∀ a ∈ da, a.1 ∈ targets ∧ electable a.2 = true) := by
  intro fuel
  induction fuel with
  | zero =>
    intro targets k n attempts removals s hnd hs
    rw [scanAux] at hs
    subst hs
    exact ⟨[], [], by simp, by simp, by simp, by simp, by simp, hnd, by simp⟩
  | succ fuel ih =>
    intro targets k n attempts removals s hnd hs
    rw [scanAux] at hs
    cases hget : targets[k]? with
    | none =>
      simp only [hget] at hs
      subst hs
      exact ⟨[], [], by simp, by simp, by simp, by simp, by simp, hnd, by simp⟩
    | some t =>
      simp only [hget] at hs
      have htm : t ∈ targets := List.getElem?_mem hget
      cases hsr : search_result t courses with
      | error e =>
        simp only [hsr] at hs
        subst hs
        exact ⟨[], [], by simp, by simp, by simp, by simp, by simp, hnd, by simp⟩
      | ok sr =>
        simp only [hsr] at hs
        by_cases hemp : sr.isEmpty
        · rw [if_pos hemp] at hs
          simp only [pyRemove_mem htm] at hs
          obtain ⟨dr2, da2, h1, h2, h3, h4, h5, h6, h7⟩ :=
            ih (targets.erase t) (k + 1) n attempts
              (removals ++ [(t, .notFound)]) s (hnd.erase t) hs
          obtain ⟨g1, g2, g3⟩ :=
            removal_step_combine hnd htm .notFound _ _ h3 h4 h5
          refine ⟨(t, .notFound) :: dr2, da2, ?_, h2, g1, g2, g3, h6, ?_⟩
          · rw [h1]; simp
          · intro a ha
            obtain ⟨ha1, ha2⟩ := h7 a ha
            exact ⟨List.mem_of_mem_erase ha1, ha2⟩
        · rw [if_neg hemp] at hs
          rcases hel : electLoop oracle t sr targets n attempts removals with
            ⟨targets2, n2, attempts2, removals2, ex⟩
          obtain ⟨⟨da1, hda1, hda1el⟩, hrem1⟩ :=
            electLoop_inv oracle t sr targets n attempts removals _ hnd hel
          have hda1x : attempts2 = attempts ++ da1 := hda1
          cases ex with
          | none =>
            simp only [hel] at hs
            rcases hrem1 with ⟨hrm, htg⟩ | ⟨hrm, htmem, htg⟩
            · have hrmx : removals2 = removals := hrm
              have htgx : targets2 = targets := htg
              rw [hrmx, htgx] at hs
              obtain ⟨dr2, da2, h1, h2, h3, h4, h5, h6, h7⟩ :=
                ih targets (k + 1) n2 attempts2 removals s hnd hs
              refine ⟨dr2, da1 ++ da2, h1, ?_, h3, h4, h5, h6, ?_⟩
              · rw [h2, hda1x, List.append_assoc]
              · intro a ha
                rcases List.mem_append.mp ha with h | h
                · obtain ⟨ha1, ha2, _⟩ := hda1el a h
                  rw [ha1]
                  exact ⟨htm, ha2⟩
                · exact h7 a h
            · have hrmx : removals2 = removals ++ [(t, Reason.elected)] := hrm
              have htgx : targets2 = targets.erase t := htg
              rw [hrmx, htgx] at hs
              obtain ⟨dr2, da2, h1, h2, h3, h4, h5, h6, h7⟩ :=
                ih (targets.erase t) (k + 1) n2 attempts2
                  (removals ++ [(t, Reason.elected)]) s (hnd.erase t) hs
              obtain ⟨g1, g2, g3⟩ :=
                removal_step_combine hnd htm .elected _ _ h3 h4 h5
              refine ⟨(t, .elected) :: dr2, da1 ++ da2, ?_, ?_, g1, g2, g3, h6, ?_⟩
              · rw [h1]; simp
              · rw [h2, hda1x, List.append_assoc]
              · intro a ha
                rcases List.mem_append.mp ha with h | h
                · obtain ⟨ha1, ha2, _⟩ := hda1el a h
                  rw [ha1]
                  exact ⟨htm, ha2⟩
                · obtain ⟨ha1, ha2⟩ := h7 a h
                  exact ⟨List.mem_of_mem_erase ha1, ha2⟩
          | some e =>
            simp only [hel] at hs
            subst hs
            rcases hrem1 with ⟨hrm, htg⟩ | ⟨hrm, htmem, htg⟩
            · have hrmx : removals2 = removals := hrm
              have htgx : targets2 = targets := htg
              refine ⟨[], da1, by simpa using hrmx, by simpa using hda1x,
                by simp, by simp, ?_, ?_, ?_⟩
              · intro x
                simp [htgx]
              · simpa [htgx] using hnd
              · intro a ha
                obtain ⟨ha1, ha2, _⟩ := hda1el a ha
                rw [ha1]
                exact ⟨htm, ha2⟩
            · have hrmx : removals2 = removals ++ [(t, Reason.elected)] := hrm
              have htgx : targets2 = targets.erase t := htg
              obtain ⟨g1, g2, g3⟩ :=
                removal_step_combine hnd htm .elected [] (targets.erase t)
                  (by simp) (by simp) (by simp)
              refine ⟨[(t, .elected)], da1, by simpa using hrmx,
                by simpa using hda1x, g1, g2, ?_, ?_, ?_⟩
              · intro x
                have := g3 x
                simpa [htgx] using this
              · simpa [htgx] using hnd.erase t
              · intro a ha
                obtain ⟨ha1, ha2, _⟩ := hda1el a ha
                rw [ha1]
                exact ⟨htm, ha2⟩

/-- Invariant of one pass of the loop body, from a duplicate-free working
list: the targets named by the pass's removals are pairwise distinct and
drawn from the working list, the surviving list is exactly the working list
minus the removed targets (so nothing is lost silently), it stays
duplicate-free, and every elect call of the pass is for a target of the
working list and a selectable course. -/
theorem runIteration_inv (fetch : FetchResult) (oracle : Nat → ElectOutcome)
    (targets : List Target) (r : IterResult) (hnd : targets.Nodup)
    (hr : runIteration fetch oracle targets = r) :
    ((r.removals.map Prod.fst).Nodup) ∧
    (∀ p ∈ r.removals, p.1 ∈ targets) ∧
    (∀ x, x ∈ r.targets ↔ x ∈ targets ∧ x ∉ r.removals.map Prod.fst) ∧
    r.targets.Nodup ∧
    (∀ a ∈ r.attempts, a.1 ∈ targets ∧ electable a.2 = true) := by
  cases fetch with
  | netErr =>
    simp only [runIteration] at hr
    subst hr
    exact ⟨by simp, by simp, by simp, hnd, by simp⟩
  | sessExp =>
    simp only [runIteration] at hr
    subst hr
    exact ⟨by simp, by simp, by simp, hnd, by simp⟩
  | ok courses =>
    simp only [runIteration] at hr
    rcases hsc : scanTargets oracle courses targets with ⟨stg, sexit, sn, satt, srem⟩
    have hsc2 : scanAux oracle courses targets.length targets 0 0 [] [] =
      ⟨stg, sexit, sn, satt, srem⟩ := hsc
    obtain ⟨dr, da, h1, h2, h3, h4, h5, h6, h7⟩ :=
      scanAux_inv oracle courses targets.length targets 0 0 [] [] _ hnd hsc2
    have h1x : srem = dr := by simpa using h1
    have h2x : satt = da := by simpa using h2
    have h5x : ∀ x, x ∈ stg ↔ x ∈ targets ∧ x ∉ dr.map Prod.fst := h5
    have h6x : stg.Nodup := h6
    subst h1x h2x
    cases sexit with
    | finished =>
      simp only [hsc] at hr
      subst hr
      exact ⟨h3, h4, h5x, h6x, h7⟩
    | sessExpExn =>
      simp only [hsc] at hr
      subst hr
      exact ⟨h3, h4, h5x, h6x, h7⟩
    | uncaughtExn =>
      simp only [hsc] at hr
      subst hr
      exact ⟨h3, h4, h5x, h6x, h7⟩
    | illegalExn t =>
      simp only [hsc] at hr
      by_cases htm : t ∈ stg
      · simp only [pyRemove_mem htm] at hr
        subst hr
        have htT : t ∈ targets ∧ t ∉ srem.map Prod.fst := (h5x t).mp htm
        refine ⟨?_, ?_, ?_, h6x.erase t, h7⟩
        · simp only [List.map_append, List.map_cons, List.map_nil]
          refine List.Nodup.append h3 (by simp) ?_
          intro a ha hb
          simp only [List.mem_singleton] at hb
          subst hb
          exact htT.2 ha
        · intro p hp
          rcases List.mem_append.mp hp with h | h
          · exact h4 p h
          · simp only [List.mem_singleton] at h
            subst h
            exact htT.1
        · intro x
          rw [h6x.mem_erase_iff]
          rw [h5x x]
          simp only [List.map_append, List.map_cons, List.map_nil,
            List.mem_append, List.mem_singleton]
          constructor
          · rintro ⟨hxt, hx1, hx2⟩
            refine ⟨hx1, ?_⟩
            rintro (h | h)
            · exact hx2 h
            · exact hxt h
          · rintro ⟨hx1, hx2⟩
            push_neg at hx2
            exact ⟨hx2.2, hx1, hx2.1⟩
      · simp only [pyRemove_not_mem htm] at hr
        subst hr
        exact ⟨h3, h4, h5x, h6x, h7⟩

/-- Run-level invariant: over a whole run from a duplicate-free target list,
the removals are pairwise distinct and drawn from the initial list, and the
final list is exactly the initial list minus the removed targets. -/
theorem runLoop_inv :
    ∀ (inputs : List IterInput) (targets : List Target)
      (removals : List (Target × Reason)) (R : RunResult), targets.Nodup →
      runLoop inputs targets removals = R →
      ∃ d, R.removals = removals ++ d ∧
        ((d.map Prod.fst).Nodup) ∧
        (∀ p ∈ d, p.1 ∈ targets) ∧
        (∀ x, x ∈ R.targets ↔ x ∈ targets ∧ x ∉ d.map Prod.fst) ∧
        R.targets.Nodup := by
  intro inputs
  induction inputs with
  | nil =>
    intro targets removals R hnd hR
    cases targets with
    | nil =>
      rw [runLoop] at hR
      subst hR
      exact ⟨[], by simp, by simp, by simp, by simp, by simp⟩
    | cons t ts =>
      rw [runLoop] at hR
      · subst hR
        exact ⟨[], by simp, by simp, by simp, by simp, hnd⟩
      · simp
  | cons inp rest ih =>
    intro targets removals R hnd hR
    cases targets with
    | nil =>
      rw [runLoop] at hR
      subst hR
      exact ⟨[], by simp, by simp, by simp, by simp, by simp⟩
    | cons t ts =>
      rw [runLoop] at hR
      rcases hit : runIteration inp.fetch inp.oracle (t :: ts) with
        ⟨itg, se, cr, iatt, irem⟩
      obtain ⟨I1, I2, I3, I4, I5⟩ :=
        runIteration_inv inp.fetch inp.oracle (t :: ts) _ hnd hit
      have I1x : (irem.map Prod.fst).Nodup := I1
      have I2x : ∀ p ∈ irem, p.1 ∈ t :: ts := I2
      have I3x : ∀ x, x ∈ itg ↔ x ∈ t :: ts ∧ x ∉ irem.map Prod.fst := I3
      have I4x : itg.Nodup := I4
      cases cr with
      | true =>
        simp only [hit] at hR
        subst hR
        exact ⟨irem, rfl, I1x, I2x, I3x, I4x⟩
      | false =>
        simp only [hit] at hR
        obtain ⟨d2, g1, g2, g3, g4, g5⟩ := ih itg (removals ++ irem) R I4x hR
        refine ⟨irem ++ d2, ?_, ?_, ?_, ?_, g5⟩
        · rw [g1, List.append_assoc]
        · simp only [List.map_append]
          refine List.Nodup.append I1x g2 ?_
          intro a ha hb
          obtain ⟨p, hp, hpa⟩ := List.mem_map.mp hb
          have hpi : p.1 ∈ itg := g3 p hp
          rw [hpa] at hpi
          exact ((I3x a).mp hpi).2 ha
        · intro p hp
          rcases List.mem_append.mp hp with h | h
          · exact I2x p h
          · exact ((I3x p.1).mp (g3 p h)).1
        · intro x
          rw [g4 x, I3x x]
          simp only [List.map_append, List.mem_append]
          constructor
          · rintro ⟨⟨hx1, hx2⟩, hx3⟩
            refine ⟨hx1, ?_⟩
            rintro (h | h)
            · exact hx2 h
            · exact hx3 h
          · rintro ⟨hx1, hx2⟩
            push_neg at hx2
            exact ⟨⟨hx1, hx2.1⟩, hx2.2⟩

/-- The `except` handlers never touch the attempts log: a pass's attempts
are the scan's attempts. -/
theorem runIteration_ok_attempts (courses : List Course)
    (oracle : Nat → ElectOutcome) (targets : List Target) :
    (runIteration (.ok courses) oracle targets).attempts =
      (scanTargets oracle courses targets).attempts := by
  simp only [runIteration]
  rcases hsc : scanTargets oracle courses targets with ⟨stg, sexit, sn, satt, srem⟩
  cases sexit with
  | finished => simp only [hsc]
  | sessExpExn => simp only [hsc]
  | uncaughtExn => simp only [hsc]
  | illegalExn t =>
    simp only [hsc]
    rcases hpr : pyRemove t stg with e | tg2 <;> simp only [hpr]

/-- Every attempt appended by the inner loop is for the scanned target and a
selectable course (no duplicate-freeness needed). -/
theorem electLoop_attempts_electable (oracle : Nat → ElectOutcome) (t : Target) :
    ∀ (sr : List Course) (targets : List Target) (n : Nat)
      (attempts : List (Target × Course)) (removals : List (Target × Reason))
      (r : LoopState),
      electLoop oracle t sr targets n attempts removals = r →
      ∀ a ∈ r.attempts, a ∈ attempts ∨ (a.1 = t ∧ electable a.2 = true) := by
  intro sr
  induction sr with
  | nil =>
    intro targets n attempts removals r hr a ha
    rw [electLoop] at hr
    subst hr
    exact Or.inl ha
  | cons c rest ih =>
    intro targets n attempts removals r hr a ha
    by_cases hc : electable c
    · rw [electLoop, if_pos hc] at hr
      cases ho : oracle n with
      | success =>
        simp only [ho] at hr
        by_cases ht : t ∈ targets
        · simp only [pyRemove_mem ht] at hr
          rcases ih _ _ _ _ _ hr a ha with h | h
          · rcases List.mem_append.mp h with h2 | h2
            · exact Or.inl h2
            · simp only [List.mem_singleton] at h2
              subst h2
              exact Or.inr ⟨rfl, hc⟩
          · exact Or.inr h
        · simp only [pyRemove_not_mem ht] at hr
          subst hr
          rcases List.mem_append.mp ha with h2 | h2
          · exact Or.inl h2
          · simp only [List.mem_singleton] at h2
            subst h2
            exact Or.inr ⟨rfl, hc⟩
      | sessExp =>
        simp only [ho] at hr
        subst hr
        rcases List.mem_append.mp ha with h2 | h2
        · exact Or.inl h2
        · simp only [List.mem_singleton] at h2
          subst h2
          exact Or.inr ⟨rfl, hc⟩
      | illegalOp =>
        simp only [ho] at hr
        subst hr
        rcases List.mem_append.mp ha with h2 | h2
        · exact Or.inl h2
        · simp only [List.mem_singleton] at h2
          subst h2
          exact Or.inr ⟨rfl, hc⟩
      | uncaught =>
        simp only [ho] at hr
        subst hr
        rcases List.mem_append.mp ha with h2 | h2
        · exact Or.inl h2
        · simp only [List.mem_singleton] at h2
          subst h2
          exact Or.inr ⟨rfl, hc⟩
    · rw [electLoop, if_neg hc] at hr
      exact ih _ _ _ _ _ hr a ha

/-- Every attempt logged by the scan is for a selectable course (no
duplicate-freeness needed). -/
theorem scanAux_attempts_electable (oracle : Nat → ElectOutcome)
    (courses : List Course) :
    ∀ (fuel : Nat) (targets : List Target) (k n : Nat)
      (attempts : List (Target × Course)) (removals : List (Target × Reason))
      (s : ScanState),
      scanAux oracle courses fuel targets k n attempts removals = s →
      ∀ a ∈ s.attempts, a ∈ attempts ∨ electable a.2 = true := by
  intro fuel
  induction fuel with
  | zero =>
    intro targets k n attempts removals s hs a ha
    rw [scanAux] at hs
    subst hs
    exact Or.inl ha
  | succ fuel ih =>
    intro targets k n attempts removals s hs a ha
    rw [scanAux] at hs
    cases hget : targets[k]? with
    | none =>
      simp only [hget] at hs
      subst hs
      exact Or.inl ha
    | some t =>
      simp only [hget] at hs
      cases hsr : search_result t courses with
      | error e =>
        simp only [hsr] at hs
        subst hs
        exact Or.inl ha
      | ok sr =>
        simp only [hsr] at hs
        by_cases hemp : sr.isEmpty
        · rw [if_pos hemp] at hs
          rcases hpr : pyRemove t targets with e | tg2
          · simp only [hpr] at hs
            subst hs
            exact Or.inl ha
          · simp only [hpr] at hs
            exact ih _ _ _ _ _ _ hs a ha
        · rw [if_neg hemp] at hs
          rcases hel : electLoop oracle t sr targets n attempts removals with
            ⟨tg2, n2, att2, rem2, ex⟩
          have helatt := electLoop_attempts_electable oracle t sr targets n
            attempts removals _ hel
          cases ex with
          | none =>
            simp only [hel] at hs
            rcases ih _ _ _ _ _ _ hs a ha with h | h
            · rcases helatt a h with h2 | h2
              · exact Or.inl h2
              · exact Or.inr h2.2
            · exact Or.inr h
          | some e =>
            simp only [hel] at hs
            subst hs
            rcases helatt a ha with h2 | h2
            · exact Or.inl h2
            · exact Or.inr h2.2

/-- Characterization of a successful match: the course passes all three
guards exactly when the names agree, both class IDs parse to the same
integer, and the colleges agree. -/
theorem courseMatches_ok_true_iff (t : Target) (c : Course) :
    courseMatches t c = .ok true ↔
      (c.name = t.courseName ∧
       (∃ v, py_int c.classID = some v ∧ py_int t.classID = some v) ∧
       c.college = t.college) := by
  unfold courseMatches
  by_cases hn : c.name = t.courseName
  · rw [if_pos hn]
    rcases ha : py_int c.classID with _ | a <;>
      rcases hb : py_int t.classID with _ | b
    · simp [ha]
    · simp [ha]
    · simp [ha, hb]
    · by_cases hab : a = b
      · subst hab
        simp [ha, hb, hn]
      · simp only [ha, hb]
        rw [if_neg hab]
        simp only [hn, true_and]
        constructor
        · intro h
          exact absurd h (by simp)
        · rintro ⟨⟨v, hv1, hv2⟩, _⟩
          injection hv1 with hv1
          injection hv2 with hv2
          exact absurd (hv1.trans hv2.symm) hab
  · rw [if_neg hn]
    simp [hn]

/-- Membership in the search result: exactly the courses passing all three
guards, provided the comprehension did not raise. -/
theorem mem_search_result (t : Target) :
    ∀ (courses l : List Course), search_result t courses = .ok l →
      ∀ c, c ∈ l ↔ c ∈ courses ∧ courseMatches t c = .ok true := by
  intro courses
  induction courses with
  | nil =>
    intro l h c
    rw [search_result] at h
    injection h with h
    subst h
    simp
  | cons c' rest ih =>
    intro l h c
    rw [search_result] at h
    rcases hm : courseMatches t c' with e | b
    · simp only [hm] at h
      exact Except.noConfusion h
    · simp only [hm] at h
      rcases hr : search_result t rest with e2 | l2
      · simp only [hr] at h
        exact Except.noConfusion h
      · simp only [hr] at h
        injection h with h
        subst h
        cases b with
        | false =>
          simp only [Bool.false_eq_true, if_false]
          rw [ih l2 hr c]
          constructor
          · rintro ⟨h1, h2⟩
            exact ⟨List.mem_cons_of_mem _ h1, h2⟩
          · rintro ⟨h1, h2⟩
            rcases List.mem_cons.mp h1 with h3 | h3
            · subst h3
              rw [hm] at h2
              exact absurd h2 (by simp)
            · exact ⟨h3, h2⟩
        | true =>
          simp only [if_true]
          constructor
          · intro h1
            rcases List.mem_cons.mp h1 with h3 | h3
            · subst h3
              exact ⟨List.mem_cons_self _ _, hm⟩
            · obtain ⟨h4, h5⟩ := (ih l2 hr c).mp h3
              exact ⟨List.mem_cons_of_mem _ h4, h5⟩
          · rintro ⟨h1, h2⟩
            rcases List.mem_cons.mp h1 with h3 | h3
            · subst h3
              exact List.mem_cons_self _ _
            · exact List.mem_cons_of_mem _ ((ih l2 hr c).mpr ⟨h3, h2⟩)

/-- When the head target of the working list has exactly one selectable
match, the pass makes exactly one elect call for it. -/
theorem scan_head_single (oracle : Nat → ElectOutcome) (courses : List Course)
    (T : Target) (rest : List Target) (sr : List Course) (c : Course)
    (s : ScanState) (hnd : (T :: rest).Nodup)
    (hsr : search_result T courses = .ok sr)
    (hone : sr.filter electable = [c])
    (hs : scanTargets oracle courses (T :: rest) = s) :
    s.attempts.countP (fun a => decide (a.1 = T)) = 1 := by
  have hs2 : scanAux oracle courses (rest.length + 1) (T :: rest) 0 0 [] [] = s := hs
  rw [scanAux] at hs2
  simp only [List.getElem?_cons_zero] at hs2
  simp only [hsr] at hs2
  have hne : sr.isEmpty = false := by
    rcases sr with _ | ⟨c', sr'⟩
    · simp at hone
    · rfl
  simp only [hne, Bool.false_eq_true, if_false] at hs2
  rcases hel : electLoop oracle T sr (T :: rest) 0 [] [] with ⟨tg2, n2, att2, rem2, ex⟩
  obtain ⟨hatt, hexit⟩ := electLoop_single oracle T c sr (T :: rest) 0 [] [] _ hone hel
  have hattx : att2 = [(T, c)] := by simpa using hatt
  cases ex with
  | some e =>
    simp only [hel] at hs2
    subst hs2
    simp [hattx, List.countP_cons]
  | none =>
    simp only [hel] at hs2
    have htg2 : tg2 = (T :: rest).erase T := (hexit rfl).2
    rw [List.erase_cons_head] at htg2
    rw [htg2] at hs2
    obtain ⟨dr, da, g1, g2, g3, g4, g5, g6, g7⟩ :=
      scanAux_inv oracle courses rest.length rest 1 n2 att2 rem2 s
        (List.nodup_cons.mp hnd).2 hs2
    rw [g2, hattx]
    rw [List.countP_append]
    have hT : T ∉ rest := (List.nodup_cons.mp hnd).1
    have hzero : da.countP (fun a => decide (a.1 = T)) = 0 := by
      rw [List.countP_eq_zero]
      intro a ha
      have hmem := (g7 a ha).1
      simp only [decide_eq_true_eq]
      intro h
      rw [h] at hmem
      exact hT hmem
    rw [hzero]
    simp [List.countP_cons]

/-- Erasing the element at position `k` of a duplicate-free list splits the
list around that position (Python's `remove` hits exactly the scanned
occurrence). -/
theorem erase_getElem_eq :
    ∀ (targets : List Target) (k : Nat) (A : Target), targets.Nodup →
      targets[k]? = some A →
      targets.erase A = targets.take k ++ targets.drop (k + 1) := by
  intro targets
  induction targets with
  | nil => intro k A _ h; simp at h
  | cons a l ih =>
    intro k A hnd h
    cases k with
    | zero =>
      rw [List.getElem?_cons_zero] at h
      injection h with h
      subst h
      rw [List.erase_cons_head]
      simp
    | succ j =>
      rw [List.getElem?_cons_succ] at h
      have hA_mem : A ∈ l := List.getElem?_mem h
      have hane : ¬((a == A) = true) := by
        simp only [beq_iff_eq]
        intro he
        exact (List.nodup_cons.mp hnd).1 (he ▸ hA_mem)
      rw [List.erase_cons_tail hane]
      rw [ih j A (List.nodup_cons.mp hnd).2 h]
      rw [List.take_succ_cons, List.drop_succ_cons]
      rfl

/-- After erasing the element at position `k`, the tail beyond the iterator
position `k + 1` is the original tail beyond `k + 2`: exactly the shift that
makes the scan skip one element. -/
theorem erase_drop_eq (targets : List Target) (k : Nat) (A : Target)
    (hnd : targets.Nodup) (hA : targets[k]? = some A) :
    (targets.erase A).drop (k + 1) = targets.drop (k + 2) := by
  obtain ⟨hk, _⟩ := List.getElem?_eq_some.mp hA
  rw [erase_getElem_eq targets k A hnd hA]
  rw [List.drop_append_eq_append_drop]
  have hlt : (targets.take k).length = k := by
    rw [List.length_take]
    omega
  rw [List.drop_eq_nil_of_le (by omega : (targets.take k).length ≤ k + 1)]
  rw [hlt]
  rw [(by omega : k + 1 - k = 1)]
  rw [List.drop_drop]
  rw [List.nil_append]

/-- Positional strengthening of the scan invariant: every removal and every
attempt logged from iterator position `k` on is for a target sitting at
position `k` or later of the working list at that moment. -/
theorem scanAux_drop (oracle : Nat → ElectOutcome) (courses : List Course) :
    ∀ (fuel : Nat) (targets : List Target) (k n : Nat)
      (attempts : List (Target × Course)) (removals : List (Target × Reason))
      (s : ScanState), targets.Nodup →
      scanAux oracle courses fuel targets k n attempts removals = s →
      ∃ dr da, s.removals = removals ++ dr ∧ s.attempts = attempts ++ da ∧
        (∀ p ∈ dr, p.1 ∈ targets.drop k) ∧
        (∀ a ∈ da, a.1 ∈ targets.drop k) := by
  intro fuel
  induction fuel with
  | zero =>
    intro targets k n attempts removals s hnd hs
    rw [scanAux] at hs
    subst hs
    exact ⟨[], [], by simp, by simp, by simp, by simp⟩
  | succ fuel ih =>
    intro targets k n attempts removals s hnd hs
    rw [scanAux] at hs
    cases hget : targets[k]? with
    | none =>
      simp only [hget] at hs
      subst hs
      exact ⟨[], [], by simp, by simp, by simp, by simp⟩
    | some t =>
      simp only [hget] at hs
      obtain ⟨hk, hkt⟩ := List.getElem?_eq_some.mp hget
      have htmem_drop : t ∈ targets.drop k := by
        rw [List.drop_eq_getElem_cons hk, hkt]
        exact List.mem_cons_self _ _
      have hsub1 : ∀ x, x ∈ targets.drop (k + 1) → x ∈ targets.drop k := by
        intro x hx
        rw [List.drop_eq_getElem_cons hk]
        exact List.mem_cons_of_mem _ hx
      have hsub2 : ∀ x, x ∈ (targets.erase t).drop (k + 1) →
          x ∈ targets.drop k := by
        intro x hx
        rw [erase_drop_eq targets k t hnd hget] at hx
        have heq : (targets.drop (k + 1)).drop 1 = targets.drop (k + 2) := by
          rw [List.drop_drop]
        rw [← heq] at hx
        exact hsub1 x (List.drop_subset _ _ hx)
      cases hsr : search_result t courses with
      | error e =>
        simp only [hsr] at hs
        subst hs
        exact ⟨[], [], by simp, by simp, by simp, by simp⟩
      | ok sr =>
        simp only [hsr] at hs
        by_cases hemp : sr.isEmpty
        · rw [if_pos hemp] at hs
          have htm : t ∈ targets := List.getElem?_mem hget
          simp only [pyRemove_mem htm] at hs
          obtain ⟨dr2, da2, h1, h2, h3, h4⟩ :=
            ih (targets.erase t) (k + 1) n attempts
              (removals ++ [(t, .notFound)]) s (hnd.erase t) hs
          refine ⟨(t, .notFound) :: dr2, da2, by rw [h1]; simp, h2, ?_, ?_⟩
          · intro p hp
            rcases List.mem_cons.mp hp with h | h
            · subst h; exact htmem_drop
            · exact hsub2 _ (h3 p h)
          · intro a ha
            exact hsub2 _ (h4 a ha)
        · rw [if_neg hemp] at hs
          rcases hel : electLoop oracle t sr targets n attempts removals with
            ⟨tg2, n2, att2, rem2, ex⟩
          obtain ⟨⟨da1, hda1, hda1el⟩, hrem1⟩ :=
            electLoop_inv oracle t sr targets n attempts removals _ hnd hel
          have hda1x : att2 = attempts ++ da1 := hda1
          cases ex with
          | none =>
            simp only [hel] at hs
            rcases hrem1 with ⟨hrm, htg⟩ | ⟨hrm, htmem, htg⟩
            · have hrmx : rem2 = removals := hrm
              have htgx : tg2 = targets := htg
              rw [hrmx, htgx] at hs
              obtain ⟨dr2, da2, h1, h2, h3, h4⟩ :=
                ih targets (k + 1) n2 att2 removals s hnd hs
              refine ⟨dr2, da1 ++ da2, h1,
                by rw [h2, hda1x, List.append_assoc], ?_, ?_⟩
              · intro p hp
                exact hsub1 _ (h3 p hp)
              · intro a ha
                rcases List.mem_append.mp ha with h | h
                · rw [(hda1el a h).1]; exact htmem_drop
                · exact hsub1 _ (h4 a h)
            · have hrmx : rem2 = removals ++ [(t, Reason.elected)] := hrm
              have htgx : tg2 = targets.erase t := htg
              rw [hrmx, htgx] at hs
              obtain ⟨dr2, da2, h1, h2, h3, h4⟩ :=
                ih (targets.erase t) (k + 1) n2 att2
                  (removals ++ [(t, Reason.elected)]) s (hnd.erase t) hs
              refine ⟨(t, .elected) :: dr2, da1 ++ da2, by rw [h1]; simp,
                by rw [h2, hda1x, List.append_assoc], ?_, ?_⟩
              · intro p hp
                rcases List.mem_cons.mp hp with h | h
                · subst h; exact htmem_drop
                · exact hsub2 _ (h3 p h)
              · intro a ha
                rcases List.mem_append.mp ha with h | h
                · rw [(hda1el a h).1]; exact htmem_drop
                · exact hsub2 _ (h4 a h)
          | some e =>
            simp only [hel] at hs
            subst hs
            rcases hrem1 with ⟨hrm, htg⟩ | ⟨hrm, htmem, htg⟩
            · have hrmx : rem2 = removals := hrm
              refine ⟨[], da1, by simpa using hrmx, by simpa using hda1x,
                by simp, ?_⟩
              intro a ha
              rw [(hda1el a ha).1]
              exact htmem_drop
            · have hrmx : rem2 = removals ++ [(t, Reason.elected)] := hrm
              refine ⟨[(t, .elected)], da1, by simpa using hrmx,
                by simpa using hda1x, ?_, ?_⟩
              · intro p hp
                rcases List.mem_singleton.mp hp with h
                subst h
                exact htmem_drop
              · intro a ha
                rw [(hda1el a ha).1]
                exact htmem_drop

/-- When the scanned target has exactly one selectable match and its elect
call succeeds, the inner loop ends normally having removed the target,
logged the one attempt and the one (elected) removal. -/
theorem electLoop_single_success (oracle : Nat → ElectOutcome) (t : Target)
    (c : Course) :
    ∀ (sr : List Course) (targets : List Target) (n : Nat)
      (attempts : List (Target × Course)) (removals : List (Target × Reason))
      (r : LoopState),
      sr.filter electable = [c] → oracle n = .success → t ∈ targets →
      electLoop oracle t sr targets n attempts removals = r →
      r = ⟨targets.erase t, n + 1, attempts ++ [(t, c)],
        removals ++ [(t, Reason.elected)], none⟩ := by
  intro sr
  induction sr with
  | nil => intro targets n attempts removals r h _ _ _; simp at h
  | cons c' rest ih =>
    intro targets n attempts removals r h hsucc ht hr
    rw [List.filter_cons] at h
    by_cases hc : electable c'
    · rw [if_pos hc] at h
      obtain ⟨hc', hrest⟩ := List.cons_eq_cons.mp h
      subst hc'
      rw [electLoop, if_pos hc] at hr
      simp only [hsucc] at hr
      simp only [pyRemove_mem ht] at hr
      rw [electLoop_no_electable oracle t rest _ _ _ _ hrest] at hr
      exact hr.symm
    · rw [if_neg hc] at h
      rw [electLoop, if_neg hc] at hr
      exact ih targets n attempts removals r h hsucc ht hr

/-- A target whose search result is non-empty but contains no selectable
course: the scan examines it and moves on without any effect (main lines
244-257 take neither the not-found branch nor any elect call). -/
def matchedButFull (courses : List Course) (t : Target) : Prop :=
  ∃ sr, search_result t courses = .ok sr ∧ sr.isEmpty = false ∧
    sr.filter electable = []

/-- The scan walks past a block of matched-but-full targets without touching
any state except the iterator position. -/
theorem scanAux_skip_neutral (oracle : Nat → ElectOutcome)
    (courses : List Course) :
    ∀ (m fuel : Nat) (targets : List Target) (k n : Nat)
      (attempts : List (Target × Course)) (removals : List (Target × Reason)),
      (∀ j, j < m → ∀ t, targets[k + j]? = some t →
        matchedButFull courses t) →
      scanAux oracle courses (fuel + m) targets k n attempts removals =
        scanAux oracle courses fuel targets (k + m) n attempts removals := by
  intro m
  induction m with
  | zero => intro fuel targets k n attempts removals _; rfl
  | succ m ih =>
    intro fuel targets k n attempts removals hneu
    rw [show fuel + (m + 1) = fuel + m + 1 from rfl]
    cases hget : targets[k]? with
    | none =>
      rw [scanAux]
      simp only [hget]
      have hlen : targets.length ≤ k := by
        by_contra hlt
        push_neg at hlt
        rw [List.getElem?_eq_getElem hlt] at hget
        exact Option.noConfusion hget
      have hnone2 : targets[k + (m + 1)]? = none :=
        List.getElem?_eq_none (by omega)
      cases fuel with
      | zero => rw [scanAux]
      | succ f =>
        rw [scanAux]
        simp only [hnone2]
    | some t =>
      obtain ⟨srt, hsrt, hne, hfil⟩ :=
        hneu 0 (by omega) t (by simpa using hget)
      have hstep : scanAux oracle courses (fuel + m + 1) targets k n attempts
          removals = scanAux oracle courses (fuel + m) targets (k + 1) n
          attempts removals := by
        rw [scanAux]
        simp only [hget, hsrt, hne, Bool.false_eq_true, if_false,
          electLoop_no_electable oracle t srt targets n attempts removals hfil]
      rw [hstep]
      rw [ih fuel targets (k + 1) n attempts removals ?_]
      · rw [show k + 1 + m = k + (m + 1) from by omega]
      · intro j hj t' hget'
        apply hneu (j + 1) (by omega) t'
        rw [show k + (j + 1) = k + 1 + j from by omega]
        exact hget'

/-- Core of the skip: once the target at position `k` has been removed (for
whatever reason) and the scan resumes at position `k + 1` of the shortened
list, the target that stood at position `k + 1` of the duplicate-free list —
immediately after the removed one — survives the rest of the scan untouched:
it is never attempted and never removed, while the removed target is gone. -/
theorem skip_after_removal (oracle : Nat → ElectOutcome)
    (courses : List Course) (fuel : Nat) (targets : List Target) (k n2 : Nat)
    (A B : Target) (attempts attempts2 : List (Target × Course))
    (removals removals2 : List (Target × Reason)) (s : ScanState)
    (hnd : targets.Nodup)
    (hA : targets[k]? = some A)
    (hB : targets[k + 1]? = some B)
    (hatt2 : ∀ a ∈ attempts2, a ∈ attempts ∨ a.1 = A)
    (hrem2 : ∀ p ∈ removals2, p ∈ removals ∨ p.1 = A)
    (hs : scanAux oracle courses fuel (targets.erase A) (k + 1) n2 attempts2
      removals2 = s) :
    A ∉ s.targets ∧ B ∈ s.targets ∧
    (∀ a ∈ s.attempts, a ∈ attempts ∨ a.1 ≠ B) ∧
    (∀ p ∈ s.removals, p ∈ removals ∨ p.1 ≠ B) := by
  obtain ⟨hk, hkA⟩ := List.getElem?_eq_some.mp hA
  obtain ⟨hk1, hk1B⟩ := List.getElem?_eq_some.mp hB
  have hBmem : B ∈ targets := List.getElem?_mem hB
  have hndk : (targets.drop k).Nodup :=
    List.Nodup.sublist (List.drop_sublist k targets) hnd
  have hdk : targets.drop k = A :: B :: targets.drop (k + 2) := by
    rw [List.drop_eq_getElem_cons hk, hkA, List.drop_eq_getElem_cons hk1,
      hk1B]
  rw [hdk] at hndk
  have hAB : A ≠ B := by
    intro he
    exact (List.nodup_cons.mp hndk).1 (he ▸ List.mem_cons_self _ _)
  have hBd2 : B ∉ targets.drop (k + 2) :=
    (List.nodup_cons.mp (List.nodup_cons.mp hndk).2).1
  have hed : (targets.erase A).drop (k + 1) = targets.drop (k + 2) :=
    erase_drop_eq targets k A hnd hA
  have hndE : (targets.erase A).Nodup := hnd.erase A
  obtain ⟨dr, da, g1, g2, g3, g4, g5, g6, g7⟩ :=
    scanAux_inv oracle courses fuel (targets.erase A) (k + 1) n2 attempts2
      removals2 s hndE hs
  obtain ⟨dr', da', f1, f2, f3, f4⟩ :=
    scanAux_drop oracle courses fuel (targets.erase A) (k + 1) n2 attempts2
      removals2 s hndE hs
  have hdr : dr' = dr := List.append_cancel_left (f1.symm.trans g1)
  have hda : da' = da := List.append_cancel_left (f2.symm.trans g2)
  rw [hdr] at f3
  rw [hda] at f4
  have hdrB : ∀ p ∈ dr, p.1 ≠ B := by
    intro p hp he
    have hmem := f3 p hp
    rw [hed, he] at hmem
    exact hBd2 hmem
  have hdaB : ∀ a ∈ da, a.1 ≠ B := by
    intro a ha he
    have hmem := f4 a ha
    rw [hed, he] at hmem
    exact hBd2 hmem
  refine ⟨?_, ?_, ?_, ?_⟩
  · intro hAs
    exact hnd.not_mem_erase ((g5 A).mp hAs).1
  · refine (g5 B).mpr ⟨(hnd.mem_erase_iff).mpr ⟨Ne.symm hAB, hBmem⟩, ?_⟩
    intro hBdr
    obtain ⟨p, hp, hpB⟩ := List.mem_map.mp hBdr
    exact hdrB p hp hpB
  · intro a ha
    rw [g2] at ha
    rcases List.mem_append.mp ha with h | h
    · rcases hatt2 a h with h2 | h2
      · exact Or.inl h2
      · exact Or.inr (by rw [h2]; exact hAB)
    · exact Or.inr (hdaB a h)
  · intro p hp
    rw [g1] at hp
    rcases List.mem_append.mp hp with h | h
    · rcases hrem2 p h with h2 | h2
      · exact Or.inl h2
      · exact Or.inr (by rw [h2]; exact hAB)
    · exact Or.inr (hdrB p h)

/-! # Theorems -/

/-- C3: elect's response classification returns success exactly when the
parsed message contains the confirmation marker "成功"; any other parsed
message yields IllegalOperationError; an unparseable response (no message)
yields SessionExpiredError; and these are the only outcomes. -/
theorem claim_c3_elect_classification (msg : Option String) :
    (classify_elect_response msg = .success ↔
      ∃ m, msg = some m ∧ strContains m electSuccessMarker = true) ∧
    (classify_elect_response msg = .illegalOperationError ↔
      ∃ m, msg = some m ∧ strContains m electSuccessMarker = false) ∧
    (classify_elect_response msg = .sessionExpiredError ↔ msg = none) := by
  cases msg with
  | none => simp [classify_elect_response]
  | some m =>
    cases h : strContains m electSuccessMarker <;>
      simp [classify_elect_response, h]

/-- C8, counterexample: the claim says solve_captcha can only succeed or
fail with SessionExpiredError, raising the latter exactly when the
submission response cannot be interpreted.  But a response that parses as
JSON while lacking the "valid" field cannot be interpreted either, and on it
solve_captcha raises an uncaught KeyError (`except ValueError`, line 172,
does not catch it) — neither success nor SessionExpiredError. -/
theorem claim_c8_counterexample :
    solve_captcha [CaptchaResp.jsonNoValid] = CaptchaOutcome.uncaughtError ∧
    solve_captcha [CaptchaResp.jsonNoValid] ≠ CaptchaOutcome.success ∧
    solve_captcha [CaptchaResp.jsonNoValid] ≠
      CaptchaOutcome.sessionExpiredError := by
  decide

/-- C8, amended: while the portal reports the submitted answer invalid
(readable "valid" field ≠ "2"), solve_captcha retries without bound; it
succeeds when a submission reports "2"; it raises SessionExpiredError
exactly when the deciding submission response is not parseable as JSON; and
a JSON response lacking the "valid" field raises an uncaught KeyError
instead. -/
theorem claim_c8_amended_solve_captcha :
    (∀ v rest, v ≠ "2" →
      solve_captcha (.validField v :: rest) = solve_captcha rest) ∧
    (∀ rs,
      (solve_captcha rs = .success ↔
        (rs.dropWhile isRetryResp).head? = some (.validField "2")) ∧
      (solve_captcha rs = .sessionExpiredError ↔
        (rs.dropWhile isRetryResp).head? = some .notJson) ∧
      (solve_captcha rs = .uncaughtError ↔
        (rs.dropWhile isRetryResp).head? = some .jsonNoValid)) := by
  constructor
  · intro v rest hv
    simp [solve_captcha, hv]
  · intro rs
    induction rs with
    | nil => simp [solve_captcha, List.dropWhile]
    | cons r rest ih =>
      cases r with
      | validField v =>
        by_cases hv : v = "2"
        · subst hv
          simp [solve_captcha, List.dropWhile, isRetryResp]
        · simpa [solve_captcha, List.dropWhile, isRetryResp, hv] using ih
      | jsonNoValid => simp [solve_captcha, List.dropWhile, isRetryResp]
      | notJson => simp [solve_captcha, List.dropWhile, isRetryResp]

/-- C8, witness for the amended theorem: a wrong answer is retried and a
later valid="2" reply succeeds. -/
theorem claim_c8_amended_solve_captcha_witness :
    ("1" : String) ≠ "2" ∧
    solve_captcha [.validField "1", .validField "2"] =
      solve_captcha [.validField "2"] := by
  exact ⟨by decide,
    claim_c8_amended_solve_captcha.1 "1" [.validField "2"] (by decide)⟩

/-- C9, counterexample: the claim says acquisition has exactly three
outcomes (session, AuthenticationError, NetworkError) and no other failure
kind escapes.  But when the IAAA login response is not JSON, `r.json()`
(line 77) raises outside any matching handler, so an unclassified ValueError
escapes get_iaaa_token and get_elective_session. -/
theorem claim_c9_counterexample :
    get_elective_session (.ok .notJson) (.ok 200) = .error .valueError ∧
    ¬ (get_elective_session (.ok .notJson) (.ok 200) = .ok () ∨
       get_elective_session (.ok .notJson) (.ok 200) =
         .error .authenticationError ∨
       get_elective_session (.ok .notJson) (.ok 200) =
         .error .networkError) := by
  refine ⟨rfl, ?_⟩
  intro h
  rcases h with h | h | h <;>
    simp [get_elective_session, get_iaaa_token] at h

/-- C9, amended: session acquisition yields a session exactly when the IAAA
response carries a token and the portal login returns 200; it yields
AuthenticationError exactly when the IAAA JSON lacks the token field or the
portal login returns a non-200 status; NetworkError exactly when either
request fails at the transport level; but an IAAA response that is not JSON
escapes as an unclassified ValueError rather than any of the three. -/
theorem claim_c9_amended_acquire (post : Transport IaaaResp)
    (login : Transport Nat) :
    (get_elective_session post login = .ok () ↔
      ∃ tok, post = .ok (.tokenField tok) ∧ login = .ok 200) ∧
    (get_elective_session post login = .error .authenticationError ↔
      post = .ok .jsonNoToken ∨
      ∃ tok s, post = .ok (.tokenField tok) ∧ login = .ok s ∧ s ≠ 200) ∧
    (get_elective_session post login = .error .networkError ↔
      post = .exn ∨ ∃ tok, post = .ok (.tokenField tok) ∧ login = .exn) ∧
    (get_elective_session post login = .error .valueError ↔
      post = .ok .notJson) := by
  rcases post with a | _
  · rcases a with tok | _ | _
    · rcases login with s | _
      · by_cases hs : s = 200
        · subst hs
          simp [get_elective_session, get_iaaa_token]
        · simp [get_elective_session, get_iaaa_token, hs]
      · simp [get_elective_session, get_iaaa_token]
    · rcases login with s | _ <;> simp [get_elective_session, get_iaaa_token]
    · rcases login with s | _ <;> simp [get_elective_session, get_iaaa_token]
  · rcases login with s | _ <;> simp [get_elective_session, get_iaaa_token]

/-- C1: over any run from a duplicate-free target list, each target is
removed at most once (the removal log names pairwise-distinct targets, all
from the initial list); each removal carries a logged terminal reason
(successful election, not-found, or rejected operation — the only
constructors of `Reason`); the surviving list is exactly the initial list
minus the removed targets, so every non-fatal error leaves each target
either pending or removed with a logged reason; and an iteration whose
directory fetch fails with NetworkError removes nothing and leaves the list
untouched. -/
theorem claim_c1_no_silent_target_loss :
    (∀ (inputs : List IterInput) (targets : List Target) (R : RunResult),
      targets.Nodup → runLoop inputs targets [] = R →
      ((R.removals.map Prod.fst).Nodup ∧
       (∀ p ∈ R.removals, p.1 ∈ targets ∧
         (p.2 = Reason.elected ∨ p.2 = Reason.notFound ∨
          p.2 = Reason.illegalOp)) ∧
       (∀ x, x ∈ R.targets ↔ x ∈ targets ∧ x ∉ R.removals.map Prod.fst))) ∧
    (∀ (oracle : Nat → ElectOutcome) (targets : List Target),
      runIteration FetchResult.netErr oracle targets =
        ⟨targets, false, false, [], []⟩) := by
  constructor
  · intro inputs targets R hnd hR
    obtain ⟨d, g1, g2, g3, g4, g5⟩ := runLoop_inv inputs targets [] R hnd hR
    have g1x : R.removals = d := by simpa using g1
    refine ⟨by rw [g1x]; exact g2, ?_, ?_⟩
    · intro p hp
      rw [g1x] at hp
      refine ⟨g3 p hp, ?_⟩
      cases hp2 : p.2 <;> simp
    · intro x
      rw [g1x]
      exact g4 x
  · intro oracle targets
    rfl

/-- C1, witness: a run with two distinct targets, where the first is
not-found (removed) and the second is skipped by the mutate-while-iterating
scan, satisfies the invariant. -/
theorem claim_c1_no_silent_target_loss_witness :
    ([(⟨"A", "1", "X"⟩ : Target), ⟨"B", "1", "X"⟩].Nodup) ∧
    (runLoop [⟨FetchResult.ok [⟨"B", "1", "X", 50, 0, "u"⟩],
        fun _ => ElectOutcome.success⟩]
      [⟨"A", "1", "X"⟩, ⟨"B", "1", "X"⟩] [] =
      (⟨[⟨"B", "1", "X"⟩], [(⟨"A", "1", "X"⟩, Reason.notFound)], false⟩ :
        RunResult)) ∧
    ((((⟨[⟨"B", "1", "X"⟩], [(⟨"A", "1", "X"⟩, Reason.notFound)], false⟩ :
        RunResult)).removals.map Prod.fst).Nodup ∧
     (∀ p ∈ ((⟨[⟨"B", "1", "X"⟩], [(⟨"A", "1", "X"⟩, Reason.notFound)], false⟩ :
        RunResult)).removals,
        p.1 ∈ [(⟨"A", "1", "X"⟩ : Target), ⟨"B", "1", "X"⟩] ∧
        (p.2 = Reason.elected ∨ p.2 = Reason.notFound ∨
         p.2 = Reason.illegalOp)) ∧
     (∀ x, x ∈ ((⟨[⟨"B", "1", "X"⟩], [(⟨"A", "1", "X"⟩, Reason.notFound)],
          false⟩ : RunResult)).targets ↔
        x ∈ [(⟨"A", "1", "X"⟩ : Target), ⟨"B", "1", "X"⟩] ∧
        x ∉ ((⟨[⟨"B", "1", "X"⟩], [(⟨"A", "1", "X"⟩, Reason.notFound)],
          false⟩ : RunResult)).removals.map Prod.fst)) :=
  ⟨by decide, by decide,
    claim_c1_no_silent_target_loss.1
      [⟨FetchResult.ok [⟨"B", "1", "X", 50, 0, "u"⟩],
        fun _ => ElectOutcome.success⟩]
      [⟨"A", "1", "X"⟩, ⟨"B", "1", "X"⟩] _ (by decide) (by decide)⟩

/-- C2, counterexample: the claim says that, whenever the directory contains
a matching selectable course for target T, exactly one election attempt is
made for T in that iteration — never more than one.  But the code keeps
iterating `search_result` after a successful election (main lines 251-257),
so with a duplicate directory row (two matching selectable records) TWO
elect calls are made for T in the same iteration (and the second
`targets.remove` then raises an uncaught ValueError). -/
theorem claim_c2_counterexample :
    search_result ⟨"Intro CS", "1", "CS"⟩
        [⟨"Intro CS", "01", "CS", 50, 49, "u"⟩,
         ⟨"Intro CS", "01", "CS", 50, 49, "u"⟩] =
      .ok [⟨"Intro CS", "01", "CS", 50, 49, "u"⟩,
           ⟨"Intro CS", "01", "CS", 50, 49, "u"⟩] ∧
    electable ⟨"Intro CS", "01", "CS", 50, 49, "u"⟩ = true ∧
    (runIteration
        (.ok [⟨"Intro CS", "01", "CS", 50, 49, "u"⟩,
              ⟨"Intro CS", "01", "CS", 50, 49, "u"⟩])
        (fun _ => .success) [⟨"Intro CS", "1", "CS"⟩]).attempts =
      [(⟨"Intro CS", "1", "CS"⟩, ⟨"Intro CS", "01", "CS", 50, 49, "u"⟩),
       (⟨"Intro CS", "1", "CS"⟩, ⟨"Intro CS", "01", "CS", 50, 49, "u"⟩)] ∧
    (runIteration
        (.ok [⟨"Intro CS", "01", "CS", 50, 49, "u"⟩,
              ⟨"Intro CS", "01", "CS", 50, 49, "u"⟩])
        (fun _ => .success) [⟨"Intro CS", "1", "CS"⟩]).crashed = true := by
  decide

/-- C2, amended: when the scan actually reaches T — in particular when T
heads a duplicate-free working list — and T has exactly one matching
selectable course, exactly one elect call is made for T in that iteration.
(With duplicate selectable matches the count can exceed one, and a target
skipped by the mutate-while-iterating scan or preempted by an earlier
exception gets zero.) -/
theorem claim_c2_amended_one_attempt (oracle : Nat → ElectOutcome)
    (courses : List Course) (T : Target) (rest : List Target)
    (sr : List Course) (c : Course) (hnd : (T :: rest).Nodup)
    (hsr : search_result T courses = .ok sr)
    (hone : sr.filter electable = [c]) :
    ((runIteration (.ok courses) oracle (T :: rest)).attempts.countP
      (fun a => decide (a.1 = T))) = 1 := by
  rw [runIteration_ok_attempts]
  exact scan_head_single oracle courses T rest sr c _ hnd hsr hone rfl

/-- C2, witness for the amended theorem: one target, one selectable match,
one elect call. -/
theorem claim_c2_amended_one_attempt_witness :
    (([(⟨"Intro CS", "1", "CS"⟩ : Target)]).Nodup) ∧
    (search_result ⟨"Intro CS", "1", "CS"⟩
        [⟨"Intro CS", "01", "CS", 50, 49, "u"⟩] =
      .ok [⟨"Intro CS", "01", "CS", 50, 49, "u"⟩]) ∧
    (([(⟨"Intro CS", "01", "CS", 50, 49, "u"⟩ : Course)].filter electable) =
      [⟨"Intro CS", "01", "CS", 50, 49, "u"⟩]) ∧
    ((runIteration (.ok [⟨"Intro CS", "01", "CS", 50, 49, "u"⟩])
        (fun _ => ElectOutcome.success)
        [⟨"Intro CS", "1", "CS"⟩]).attempts.countP
      (fun a => decide (a.1 = (⟨"Intro CS", "1", "CS"⟩ : Target)))) = 1 :=
  ⟨by decide, by decide, by decide,
    claim_c2_amended_one_attempt (fun _ => ElectOutcome.success)
      [⟨"Intro CS", "01", "CS", 50, 49, "u"⟩] ⟨"Intro CS", "1", "CS"⟩ []
      [⟨"Intro CS", "01", "CS", 50, 49, "u"⟩]
      ⟨"Intro CS", "01", "CS", 50, 49, "u"⟩ (by decide) (by decide) (by decide)⟩

/-- C4, counterexample: the claim says that whenever a stage fails with
SessionExpiredError the working target list is left unchanged — no target is
removed.  But a target removed EARLIER in the same iteration (here: a
not-found removal) stays removed when a later election attempt raises
SessionExpiredError: the iteration below re-authenticates (flag set) yet the
list shrank from three targets to two. -/
theorem claim_c4_counterexample :
    (runIteration (FetchResult.ok [⟨"C", "1", "X", 50, 0, "u"⟩])
        (fun _ => ElectOutcome.sessExp)
        [⟨"A", "1", "X"⟩, ⟨"B", "1", "X"⟩, ⟨"C", "1", "X"⟩]).sessionExpired =
      true ∧
    (runIteration (FetchResult.ok [⟨"C", "1", "X", 50, 0, "u"⟩])
        (fun _ => ElectOutcome.sessExp)
        [⟨"A", "1", "X"⟩, ⟨"B", "1", "X"⟩, ⟨"C", "1", "X"⟩]).removals =
      [(⟨"A", "1", "X"⟩, Reason.notFound)] ∧
    (runIteration (FetchResult.ok [⟨"C", "1", "X", 50, 0, "u"⟩])
        (fun _ => ElectOutcome.sessExp)
        [⟨"A", "1", "X"⟩, ⟨"B", "1", "X"⟩, ⟨"C", "1", "X"⟩]).targets ≠
      [⟨"A", "1", "X"⟩, ⟨"B", "1", "X"⟩, ⟨"C", "1", "X"⟩] := by
  decide

/-- C4, amended: a SessionExpiredError itself removes nothing and forces
re-authentication: a session-expired directory fetch leaves the list exactly
as it was, and a session-expired election attempt ends the pass with the
list exactly as the scan left it at the moment of the exception (removals
earlier in the same pass, made for their own terminal outcomes, persist) and
the re-login flag set, so the next action is re-authentication. -/
theorem claim_c4_amended_session_expiry :
    (∀ (oracle : Nat → ElectOutcome) (targets : List Target),
      runIteration FetchResult.sessExp oracle targets =
        ⟨targets, true, false, [], []⟩) ∧
    (∀ (courses : List Course) (oracle : Nat → ElectOutcome)
       (targets : List Target) (s : ScanState),
      scanTargets oracle courses targets = s →
      s.exit = ScanExit.sessExpExn →
      runIteration (FetchResult.ok courses) oracle targets =
        ⟨s.targets, true, false, s.attempts, s.removals⟩) := by
  constructor
  · intro oracle targets
    rfl
  · intro courses oracle targets s hs hexit
    rcases s with ⟨stg, sexit, sn, satt, srem⟩
    have hexitx : sexit = ScanExit.sessExpExn := hexit
    subst hexitx
    simp only [runIteration, hs]

/-- C4, witness for the amended theorem: the fetch-failure half at a
concrete list, and the election-failure half at the concrete scan of the
counterexample's iteration. -/
theorem claim_c4_amended_session_expiry_witness :
    (runIteration FetchResult.sessExp (fun _ => ElectOutcome.success)
        [(⟨"A", "1", "X"⟩ : Target)] =
      ⟨[⟨"A", "1", "X"⟩], true, false, [], []⟩) ∧
    (scanTargets (fun _ => ElectOutcome.sessExp) [⟨"C", "1", "X", 50, 0, "u"⟩]
        [⟨"A", "1", "X"⟩, ⟨"B", "1", "X"⟩, ⟨"C", "1", "X"⟩] =
      (⟨[⟨"B", "1", "X"⟩, ⟨"C", "1", "X"⟩], ScanExit.sessExpExn, 1,
        [(⟨"C", "1", "X"⟩, ⟨"C", "1", "X", 50, 0, "u"⟩)],
        [(⟨"A", "1", "X"⟩, Reason.notFound)]⟩ : ScanState)) ∧
    runIteration (FetchResult.ok [⟨"C", "1", "X", 50, 0, "u"⟩])
        (fun _ => ElectOutcome.sessExp)
        [⟨"A", "1", "X"⟩, ⟨"B", "1", "X"⟩, ⟨"C", "1", "X"⟩] =
      ⟨[⟨"B", "1", "X"⟩, ⟨"C", "1", "X"⟩], true, false,
        [(⟨"C", "1", "X"⟩, ⟨"C", "1", "X", 50, 0, "u"⟩)],
        [(⟨"A", "1", "X"⟩, Reason.notFound)]⟩ :=
  ⟨claim_c4_amended_session_expiry.1 (fun _ => ElectOutcome.success)
      [⟨"A", "1", "X"⟩],
   by decide,
   claim_c4_amended_session_expiry.2 [⟨"C", "1", "X", 50, 0, "u"⟩]
     (fun _ => ElectOutcome.sessExp)
     [⟨"A", "1", "X"⟩, ⟨"B", "1", "X"⟩, ⟨"C", "1", "X"⟩]
     (⟨[⟨"B", "1", "X"⟩, ⟨"C", "1", "X"⟩], ScanExit.sessExpExn, 1,
       [(⟨"C", "1", "X"⟩, ⟨"C", "1", "X", 50, 0, "u"⟩)],
       [(⟨"A", "1", "X"⟩, Reason.notFound)]⟩ : ScanState)
     (by decide) (by decide)⟩

/-- C5, counterexample: the claim says that on IllegalOperationError for
target T, exactly T is removed and the loop continues processing the
remaining targets of the SAME iteration.  But the handler sits outside the
`for` loop (main lines 263-267), so the exception aborts the scan: below,
target B has a matching selectable course yet gets no elect call in the
iteration where A's attempt was rejected — B is only reconsidered on the
next pass. -/
theorem claim_c5_counterexample :
    runIteration
        (.ok [⟨"A", "1", "X", 50, 0, "ua"⟩, ⟨"B", "1", "X", 50, 0, "ub"⟩])
        (fun _ => .illegalOp) [⟨"A", "1", "X"⟩, ⟨"B", "1", "X"⟩] =
      ⟨[⟨"B", "1", "X"⟩], false, false,
        [(⟨"A", "1", "X"⟩, ⟨"A", "1", "X", 50, 0, "ua"⟩)],
        [(⟨"A", "1", "X"⟩, Reason.illegalOp)]⟩ ∧
    search_result ⟨"B", "1", "X"⟩
        [⟨"A", "1", "X", 50, 0, "ua"⟩, ⟨"B", "1", "X", 50, 0, "ub"⟩] =
      .ok [⟨"B", "1", "X", 50, 0, "ub"⟩] ∧
    electable ⟨"B", "1", "X", 50, 0, "ub"⟩ = true := by
  decide

/-- C5, amended: when an election attempt for T raises
IllegalOperationError, the scan aborts, the handler removes exactly T (the
list becomes the scan's list with T erased, the removal log gains exactly
`(T, illegalOp)`), the session is kept, and the remaining targets are
processed again only from the NEXT iteration on — not in the same one. -/
theorem claim_c5_amended_illegal_operation (courses : List Course)
    (oracle : Nat → ElectOutcome) (targets : List Target) (s : ScanState)
    (t : Target) (hs : scanTargets oracle courses targets = s)
    (hexit : s.exit = ScanExit.illegalExn t) (htm : t ∈ s.targets) :
    runIteration (FetchResult.ok courses) oracle targets =
      ⟨s.targets.erase t, false, false, s.attempts,
        s.removals ++ [(t, Reason.illegalOp)]⟩ := by
  rcases s with ⟨stg, sexit, sn, satt, srem⟩
  have hexitx : sexit = ScanExit.illegalExn t := hexit
  subst hexitx
  have htmx : t ∈ stg := htm
  simp only [runIteration, hs, pyRemove_mem htmx]

/-- C5, witness for the amended theorem, at the counterexample's inputs. -/
theorem claim_c5_amended_illegal_operation_witness :
    (scanTargets (fun _ => ElectOutcome.illegalOp)
        [⟨"A", "1", "X", 50, 0, "ua"⟩, ⟨"B", "1", "X", 50, 0, "ub"⟩]
        [⟨"A", "1", "X"⟩, ⟨"B", "1", "X"⟩] =
      (⟨[⟨"A", "1", "X"⟩, ⟨"B", "1", "X"⟩],
        ScanExit.illegalExn ⟨"A", "1", "X"⟩, 1,
        [(⟨"A", "1", "X"⟩, ⟨"A", "1", "X", 50, 0, "ua"⟩)], []⟩ : ScanState)) ∧
    ((⟨"A", "1", "X"⟩ : Target) ∈
      [(⟨"A", "1", "X"⟩ : Target), ⟨"B", "1", "X"⟩]) ∧
    runIteration
        (FetchResult.ok
          [⟨"A", "1", "X", 50, 0, "ua"⟩, ⟨"B", "1", "X", 50, 0, "ub"⟩])
        (fun _ => ElectOutcome.illegalOp)
        [⟨"A", "1", "X"⟩, ⟨"B", "1", "X"⟩] =
      ⟨[(⟨"A", "1", "X"⟩ : Target), ⟨"B", "1", "X"⟩].erase ⟨"A", "1", "X"⟩,
        false, false, [(⟨"A", "1", "X"⟩, ⟨"A", "1", "X", 50, 0, "ua"⟩)],
        [] ++ [(⟨"A", "1", "X"⟩, Reason.illegalOp)]⟩ :=
  ⟨by decide, by decide,
    claim_c5_amended_illegal_operation
      [⟨"A", "1", "X", 50, 0, "ua"⟩, ⟨"B", "1", "X", 50, 0, "ub"⟩]
      (fun _ => ElectOutcome.illegalOp) [⟨"A", "1", "X"⟩, ⟨"B", "1", "X"⟩]
      (⟨[⟨"A", "1", "X"⟩, ⟨"B", "1", "X"⟩],
        ScanExit.illegalExn ⟨"A", "1", "X"⟩, 1,
        [(⟨"A", "1", "X"⟩, ⟨"A", "1", "X", 50, 0, "ua"⟩)], []⟩ : ScanState)
      ⟨"A", "1", "X"⟩ (by decide) (by decide) (by decide)⟩

/-- C6: the matcher selects, for a target, exactly the courses whose name
and college equal the target's and whose class ID parses to the same integer
as the target's (whenever the comprehension completes without a parse
error); and the numeric comparison makes the course class-ID string "7"
match the target class-ID string "07". -/
theorem claim_c6_matcher (t : Target) (courses l : List Course)
    (h : search_result t courses = .ok l) :
    (∀ c, c ∈ l ↔ c ∈ courses ∧ c.name = t.courseName ∧
      (∃ v, py_int c.classID = some v ∧ py_int t.classID = some v) ∧
      c.college = t.college) ∧
    courseMatches ⟨"N", "07", "X"⟩ ⟨"N", "7", "X", 10, 0, "u"⟩ = .ok true := by
  refine ⟨?_, by decide⟩
  intro c
  rw [mem_search_result t courses l h c, courseMatches_ok_true_iff]

/-- C6, witness: a directory with one matching and one non-matching course;
the match set is characterized as the theorem states. -/
theorem claim_c6_matcher_witness :
    (search_result ⟨"Algo", "07", "E"⟩
        [⟨"Algo", "7", "E", 10, 0, "u"⟩, ⟨"Zzz", "7", "E", 10, 0, "u"⟩] =
      .ok [⟨"Algo", "7", "E", 10, 0, "u"⟩]) ∧
    ((∀ c, c ∈ [(⟨"Algo", "7", "E", 10, 0, "u"⟩ : Course)] ↔
      c ∈ [(⟨"Algo", "7", "E", 10, 0, "u"⟩ : Course),
           ⟨"Zzz", "7", "E", 10, 0, "u"⟩] ∧
      c.name = "Algo" ∧
      (∃ v, py_int c.classID = some v ∧ py_int "07" = some v) ∧
      c.college = "E") ∧
     courseMatches ⟨"N", "07", "X"⟩ ⟨"N", "7", "X", 10, 0, "u"⟩ = .ok true) :=
  ⟨by decide,
    claim_c6_matcher ⟨"Algo", "07", "E"⟩
      [⟨"Algo", "7", "E", 10, 0, "u"⟩, ⟨"Zzz", "7", "E", 10, 0, "u"⟩]
      [⟨"Algo", "7", "E", 10, 0, "u"⟩] (by decide)⟩

/-- C7: an elect call is only ever made for a course whose filled count is
strictly below its capacity; and when a target's matches are all full
(filled not below capacity), the pass makes no elect call and the target
stays pending with nothing else changed. -/
theorem claim_c7_strict_capacity_check :
    (∀ (fetch : FetchResult) (oracle : Nat → ElectOutcome)
       (targets : List Target) (a : Target × Course),
      a ∈ (runIteration fetch oracle targets).attempts →
      a.2.used_slots < a.2.max_slots) ∧
    (∀ (courses : List Course) (oracle : Nat → ElectOutcome) (T : Target)
       (sr : List Course),
      search_result T courses = .ok sr → sr ≠ [] →
      (∀ c ∈ sr, ¬ (c.used_slots < c.max_slots)) →
      runIteration (.ok courses) oracle [T] = ⟨[T], false, false, [], []⟩) := by
  constructor
  · intro fetch oracle targets a ha
    cases fetch with
    | netErr => simp [runIteration] at ha
    | sessExp => simp [runIteration] at ha
    | ok courses =>
      rw [runIteration_ok_attempts] at ha
      rcases scanAux_attempts_electable oracle courses targets.length targets
        0 0 [] [] _ rfl a ha with h | h
      · simp at h
      · simpa [electable] using h
  · intro courses oracle T sr hsr hne hfull
    have hfil : sr.filter electable = [] := by
      rw [List.filter_eq_nil_iff]
      intro c hc
      simp only [electable, decide_eq_true_eq]
      exact hfull c hc
    have hemp : sr.isEmpty = false := by
      rcases sr with _ | ⟨c', sr'⟩
      · exact absurd rfl hne
      · rfl
    have hscan : scanTargets oracle courses [T] =
        ⟨[T], .finished, 0, [], []⟩ := by
      show scanAux oracle courses 1 [T] 0 0 [] [] = _
      rw [scanAux]
      simp only [List.getElem?_cons_zero, hsr, hemp, Bool.false_eq_true,
        if_false, electLoop_no_electable oracle T sr [T] 0 [] [] hfil]
      rw [scanAux]
    simp only [runIteration, hscan]

/-- C7, witness: the spec's scenario — capacity 50, filled 50 — yields no
elect call and leaves the target pending; and a logged attempt (none here,
so the first half is checked at the counterexample-style inputs of C2's
witness) respects the strict inequality. -/
theorem claim_c7_strict_capacity_check_witness :
    (search_result ⟨"Intro CS", "1", "CS"⟩
        [⟨"Intro CS", "01", "CS", 50, 50, "u"⟩] =
      .ok [⟨"Intro CS", "01", "CS", 50, 50, "u"⟩]) ∧
    ([(⟨"Intro CS", "01", "CS", 50, 50, "u"⟩ : Course)] ≠ []) ∧
    (∀ c ∈ [(⟨"Intro CS", "01", "CS", 50, 50, "u"⟩ : Course)],
      ¬ (c.used_slots < c.max_slots)) ∧
    runIteration (.ok [⟨"Intro CS", "01", "CS", 50, 50, "u"⟩])
        (fun _ => ElectOutcome.success) [⟨"Intro CS", "1", "CS"⟩] =
      ⟨[⟨"Intro CS", "1", "CS"⟩], false, false, [], []⟩ :=
  ⟨by decide, by decide, by decide,
    claim_c7_strict_capacity_check.2 [⟨"Intro CS", "01", "CS", 50, 50, "u"⟩]
      (fun _ => ElectOutcome.success) ⟨"Intro CS", "1", "CS"⟩
      [⟨"Intro CS", "01", "CS", 50, 50, "u"⟩]
      (by decide) (by decide) (by decide)⟩

/-- C10: removing a target while iterating skips the target immediately
after it for the remainder of that pass, whatever the cause of the removal.
Part one is universal over the scan: at any iterator position `k` of any
duplicate-free working list, with any accumulated state, if the scanned
target `A` is removed — because it is not found, or because its single
selectable match is elected successfully (the only successful-election shape
that lets the pass continue: with several selectable duplicates the pass
crashes on the second remove, see C2) — then the remainder of the scan never
touches the target `B` that stood right after `A`: `A` is gone, `B` is still
pending at the end of the scan, and no elect call and no removal of the rest
of the pass concerns `B`.  Part two: the skipped target is examined again on
the next pass — when its predecessors in the new list are matched-but-full
(so no fresh removal re-triggers the skip and no exception intervenes), the
next pass reaches it and makes an elect call for it. -/
theorem claim_c10_remove_while_iterating_skip :
    (∀ (oracle : Nat → ElectOutcome) (courses : List Course) (fuel : Nat)
       (targets : List Target) (k n : Nat)
       (attempts : List (Target × Course)) (removals : List (Target × Reason))
       (A B : Target) (s : ScanState),
      targets.Nodup →
      targets[k]? = some A →
      targets[k + 1]? = some B →
      (search_result A courses = .ok [] ∨
        ∃ sr c, search_result A courses = .ok sr ∧
          sr.filter electable = [c] ∧ oracle n = .success) →
      scanAux oracle courses (fuel + 1) targets k n attempts removals = s →
      A ∉ s.targets ∧ B ∈ s.targets ∧
      (∀ a ∈ s.attempts, a ∈ attempts ∨ a.1 ≠ B) ∧
      (∀ p ∈ s.removals, p ∈ removals ∨ p.1 ≠ B)) ∧
    (∀ (oracle2 : Nat → ElectOutcome) (courses : List Course)
       (pre rest : List Target) (B : Target) (srB : List Course),
      (pre ++ B :: rest).Nodup →
      (∀ t ∈ pre, matchedButFull courses t) →
      search_result B courses = .ok srB →
      srB.filter electable ≠ [] →
      ∃ a ∈ (runIteration (.ok courses) oracle2 (pre ++ B :: rest)).attempts,
        a.1 = B) := by
  constructor
  · intro oracle courses fuel targets k n attempts removals A B s hnd hA hB
      hcause hs
    rw [scanAux] at hs
    simp only [hA] at hs
    have htm : A ∈ targets := List.getElem?_mem hA
    rcases hcause with hnf | ⟨sr, c, hsr, hfil, hsucc⟩
    · simp only [hnf, List.isEmpty_nil, if_true] at hs
      simp only [pyRemove_mem htm] at hs
      refine skip_after_removal oracle courses fuel targets k n A B attempts
        attempts removals (removals ++ [(A, Reason.notFound)]) s hnd hA hB
        (fun a ha => Or.inl ha) ?_ hs
      intro p hp
      rcases List.mem_append.mp hp with h | h
      · exact Or.inl h
      · rcases List.mem_singleton.mp h with h2
        subst h2
        exact Or.inr rfl
    · simp only [hsr] at hs
      have hne : sr.isEmpty = false := by
        rcases sr with _ | ⟨c0, sr0⟩
        · simp at hfil
        · rfl
      simp only [hne, Bool.false_eq_true, if_false] at hs
      rcases hel : electLoop oracle A sr targets n attempts removals with
        ⟨tg2, n2, att2, rem2, ex⟩
      have heq := electLoop_single_success oracle A c sr targets n attempts
        removals _ hfil hsucc htm hel
      injection heq with e1 e2 e3 e4 e5
      subst e1 e2 e3 e4 e5
      simp only [hel] at hs
      refine skip_after_removal oracle courses fuel targets k (n + 1) A B
        attempts (attempts ++ [(A, c)]) removals
        (removals ++ [(A, Reason.elected)]) s hnd hA hB ?_ ?_ hs
      · intro a ha
        rcases List.mem_append.mp ha with h | h
        · exact Or.inl h
        · rcases List.mem_singleton.mp h with h2
          subst h2
          exact Or.inr rfl
      · intro p hp
        rcases List.mem_append.mp hp with h | h
        · exact Or.inl h
        · rcases List.mem_singleton.mp h with h2
          subst h2
          exact Or.inr rfl
  · intro oracle2 courses pre rest B srB hnd hpre hsrB hBel
    have hne : srB.isEmpty = false := by
      rcases srB with _ | ⟨c0, sr0⟩
      · simp at hBel
      · rfl
    rcases hS : scanTargets oracle2 courses (pre ++ B :: rest) with
      ⟨stg, sexit, sn, satt, srem⟩
    have hS2 : scanAux oracle2 courses (pre ++ B :: rest).length
        (pre ++ B :: rest) 0 0 [] [] =
        (⟨stg, sexit, sn, satt, srem⟩ : ScanState) := hS
    have hlen : (pre ++ B :: rest).length = rest.length + 1 + pre.length := by
      simp [List.length_append]
      omega
    rw [hlen] at hS2
    have hskip := scanAux_skip_neutral oracle2 courses pre.length
      (rest.length + 1) (pre ++ B :: rest) 0 0 [] [] ?_
    · rw [hskip] at hS2
      rw [Nat.zero_add] at hS2
      rw [scanAux] at hS2
      have hgetB : (pre ++ B :: rest)[pre.length]? = some B := by
        rw [List.getElem?_append_right (le_refl _)]
        simp
      simp only [hgetB, hsrB, hne, Bool.false_eq_true, if_false] at hS2
      rcases hel : electLoop oracle2 B srB (pre ++ B :: rest) 0 [] [] with
        ⟨tg2, n2, att2, rem2, ex⟩
      obtain ⟨⟨da1, hda1, hda1el⟩, hrem1⟩ :=
        electLoop_inv oracle2 B srB (pre ++ B :: rest) 0 [] [] _ hnd hel
      have hda1x : att2 = da1 := by simpa using hda1
      have hlen1 := electLoop_attempts_len oracle2 B srB (pre ++ B :: rest)
        0 [] [] _ hBel hel
      have hlen1x : 0 < att2.length := hlen1
      have hex : ∃ a ∈ att2, a.1 = B := by
        rcases hatt : att2 with _ | ⟨a0, att0⟩
        · rw [hatt] at hlen1x
          simp at hlen1x
        · refine ⟨a0, List.mem_cons_self _ _, ?_⟩
          have ha0 : a0 ∈ da1 := by
            rw [← hda1x, hatt]
            exact List.mem_cons_self _ _
          exact (hda1el a0 ha0).1
      obtain ⟨a0, ha0mem, ha0B⟩ := hex
      have hattEq : (runIteration (.ok courses) oracle2
          (pre ++ B :: rest)).attempts = satt := by
        rw [runIteration_ok_attempts, hS]
      rw [hattEq]
      cases ex with
      | some e =>
        simp only [hel] at hS2
        have hsatt : att2 = satt := congrArg ScanState.attempts hS2
        exact ⟨a0, hsatt ▸ ha0mem, ha0B⟩
      | none =>
        simp only [hel] at hS2
        have hnd2 : tg2.Nodup := by
          rcases hrem1 with ⟨_, htg⟩ | ⟨_, _, htg⟩
          · have htgx : tg2 = pre ++ B :: rest := htg
            rw [htgx]
            exact hnd
          · have htgx : tg2 = (pre ++ B :: rest).erase B := htg
            rw [htgx]
            exact hnd.erase B
        obtain ⟨dr, da, g1, g2, g3, g4, g5, g6, g7⟩ :=
          scanAux_inv oracle2 courses rest.length tg2 (pre.length + 1) n2
            att2 rem2 _ hnd2 hS2
        have g2x : satt = att2 ++ da := g2
        refine ⟨a0, ?_, ha0B⟩
        rw [g2x]
        exact List.mem_append.mpr (Or.inl ha0mem)
    · intro j hj t hget
      rw [Nat.zero_add] at hget
      rw [List.getElem?_append] at hget
      rw [if_pos hj] at hget
      exact hpre t (List.getElem?_mem hget)

/-- C10, witness: both halves at concrete inputs.  First half at the
successful-election cause, away from the head of the list: the scan of
[P, A, B] resumed at position 1 elects A's unique selectable match, removes
A, and skips B.  Second half: the next pass over [P, B], with P matched but
full, reaches B and attempts it. -/
theorem claim_c10_remove_while_iterating_skip_witness :
    (([(⟨"P", "1", "X"⟩ : Target), ⟨"A", "1", "X"⟩, ⟨"B", "1", "X"⟩]).Nodup ∧
     ([(⟨"P", "1", "X"⟩ : Target), ⟨"A", "1", "X"⟩,
        ⟨"B", "1", "X"⟩][1]? = some ⟨"A", "1", "X"⟩) ∧
     ([(⟨"P", "1", "X"⟩ : Target), ⟨"A", "1", "X"⟩,
        ⟨"B", "1", "X"⟩][1 + 1]? = some ⟨"B", "1", "X"⟩) ∧
     (search_result ⟨"A", "1", "X"⟩ [⟨"A", "1", "X", 50, 0, "ua"⟩] =
        .ok [⟨"A", "1", "X", 50, 0, "ua"⟩] ∧
      ([(⟨"A", "1", "X", 50, 0, "ua"⟩ : Course)].filter electable) =
        [⟨"A", "1", "X", 50, 0, "ua"⟩]) ∧
     (scanAux (fun _ => ElectOutcome.success) [⟨"A", "1", "X", 50, 0, "ua"⟩]
        (2 + 1) [⟨"P", "1", "X"⟩, ⟨"A", "1", "X"⟩, ⟨"B", "1", "X"⟩] 1 0 [] [] =
        (⟨[⟨"P", "1", "X"⟩, ⟨"B", "1", "X"⟩], ScanExit.finished, 1,
          [(⟨"A", "1", "X"⟩, ⟨"A", "1", "X", 50, 0, "ua"⟩)],
          [(⟨"A", "1", "X"⟩, Reason.elected)]⟩ : ScanState)) ∧
     ((⟨"A", "1", "X"⟩ : Target) ∉
        [(⟨"P", "1", "X"⟩ : Target), ⟨"B", "1", "X"⟩] ∧
      (⟨"B", "1", "X"⟩ : Target) ∈
        [(⟨"P", "1", "X"⟩ : Target), ⟨"B", "1", "X"⟩] ∧
      (∀ a ∈ [((⟨"A", "1", "X"⟩ : Target),
          (⟨"A", "1", "X", 50, 0, "ua"⟩ : Course))],
        a ∈ ([] : List (Target × Course)) ∨ a.1 ≠ ⟨"B", "1", "X"⟩) ∧
      (∀ p ∈ [((⟨"A", "1", "X"⟩ : Target), Reason.elected)],
        p ∈ ([] : List (Target × Reason)) ∨ p.1 ≠ ⟨"B", "1", "X"⟩))) ∧
    ∃ a ∈ (runIteration
        (.ok [⟨"P", "1", "X", 50, 50, "up"⟩, ⟨"B", "1", "X", 50, 0, "ub"⟩])
        (fun _ => ElectOutcome.success)
        ([(⟨"P", "1", "X"⟩ : Target)] ++ ⟨"B", "1", "X"⟩ :: [])).attempts,
      a.1 = (⟨"B", "1", "X"⟩ : Target) :=
  ⟨⟨by decide, by decide, by decide, ⟨by decide, by decide⟩, by decide,
    claim_c10_remove_while_iterating_skip.1 (fun _ => ElectOutcome.success)
      [⟨"A", "1", "X", 50, 0, "ua"⟩] 2
      [⟨"P", "1", "X"⟩, ⟨"A", "1", "X"⟩, ⟨"B", "1", "X"⟩] 1 0 [] []
      ⟨"A", "1", "X"⟩ ⟨"B", "1", "X"⟩
      (⟨[⟨"P", "1", "X"⟩, ⟨"B", "1", "X"⟩], ScanExit.finished, 1,
        [(⟨"A", "1", "X"⟩, ⟨"A", "1", "X", 50, 0, "ua"⟩)],
        [(⟨"A", "1", "X"⟩, Reason.elected)]⟩ : ScanState)
      (by decide) (by decide) (by decide)
      (Or.inr ⟨[⟨"A", "1", "X", 50, 0, "ua"⟩], ⟨"A", "1", "X", 50, 0, "ua"⟩,
        by decide, by decide, rfl⟩)
      (by decide)⟩,
   claim_c10_remove_while_iterating_skip.2 (fun _ => ElectOutcome.success)
     [⟨"P", "1", "X", 50, 50, "up"⟩, ⟨"B", "1", "X", 50, 0, "ub"⟩]
     [⟨"P", "1", "X"⟩] [] ⟨"B", "1", "X"⟩ [⟨"B", "1", "X", 50, 0, "ub"⟩]
     (by decide)
     (by
       intro t ht
       rcases List.mem_singleton.mp ht with h
       subst h
       exact ⟨[⟨"P", "1", "X", 50, 50, "up"⟩], by decide, by decide,
         by decide⟩)
     (by decide) (by decide)⟩

end EasyElective
